import Mathlib

/-!
Verification of the natsrun subject router against its specification.

The development shallowly embeds the TypeScript core of the repository:

* `SPool` — the token pool (`src/lib/natstrie/string-pool.ts`);
* `TrieNode`, `insertGo`, `matchGo`, `natsTrieInsert`, `natsTrieMatch` —
  the matching trie (`src/lib/natstrie/index.ts`);
* `wrapHandler`, `buildGroups`, `natsRunAdd`, `calculateSpecificity`,
  `natsRunMatch`, `objectifyData`, `nextContext`, `runHandler`,
  `natsRunHandle` — the router (`src/index.ts`).

Handler functions are represented by opaque numeric tags; where a claim
depends on what a handler does at dispatch time, its behaviour is modelled by the
small inductive `HandlerBeh`.  JavaScript exceptions are modelled with
explicit error results.  Machine numbers in the embedded fragment are
counters and interned identifiers, which JavaScript stores exactly, so they
are modelled as `Nat`.
-/

/-- JavaScript `subject.split(".")` on the list of characters: splitting never
yields `[]`; an empty string splits to `[""]`. -/
def jsSplitAux : List Char → List Char → List String
  | [], cur => [String.mk cur.reverse]
  | c :: cs, cur =>
    if c = '.' then String.mk cur.reverse :: jsSplitAux cs []
    else jsSplitAux cs (c :: cur)

/-- JavaScript `s.split(".")`. -/
def jsSplit (s : String) : List String := jsSplitAux s.data []

/-! ## Token pool (`src/lib/natstrie/string-pool.ts`)

`StringPool` keeps a map from strings to ids, the inverse array, and the
counter `nextId`, initialised to `1`; the constructor interns the
`initialStrings` it is given.  The unused methods `getString`, `clear` and
`size` are not modelled. -/

/-- State of a `StringPool` instance. -/
structure SPool where
  pool : List (String × Nat)
  strings : List (Nat × String)
  nextId : Nat
deriving DecidableEq, Repr

/-- JavaScript `this.pool.get(str)`. -/
def SPool.lookupStr (sp : SPool) (s : String) : Option Nat :=
  (sp.pool.find? (fun e => e.1 == s)).map (fun e => e.2)

/-- `StringPool.intern`: return the existing id for a known string, otherwise
assign `nextId`, record the string, and advance the counter.  (The dynamic
`typeof str !== 'string'` guard cannot fire on `String` inputs.) -/
def SPool.intern (sp : SPool) (s : String) : Nat × SPool :=
  match sp.lookupStr s with
  | some id => (id, sp)
  | none =>
    (sp.nextId,
     { pool := sp.pool ++ [(s, sp.nextId)],
       strings := sp.strings ++ [(sp.nextId, s)],
       nextId := sp.nextId + 1 })

/-- The `StringPool` constructor: start from an empty pool with `nextId = 1`
and intern each of the `initialStrings` in order. -/
def SPool.init (initialStrings : List String) : SPool :=
  initialStrings.foldl (fun sp s => (sp.intern s).2) { pool := [], strings := [], nextId := 1 }

/-- Intern a list of strings in order, returning their ids and the final pool. -/
def internList : SPool → List String → List Nat × SPool
  | pool, [] => ([], pool)
  | pool, t :: ts =>
    let r := pool.intern t
    let rs := internList r.2 ts
    (r.1 :: rs.1, rs.2)

/-- JavaScript `topics.indexOf(x)` as an option: index of the first
occurrence, if any. -/
def firstIdx : List String → String → Option Nat
  | [], _ => none
  | a :: rest, x => if a = x then some 0 else (firstIdx rest x).map (fun i => i + 1)

/-! ## Matching trie (`src/lib/natstrie/index.ts`) -/

/-- `BranchType` discriminant of a node's branch (`_t`). -/
inductive BranchKind where
  | array
  | map
deriving DecidableEq, Repr

/-- `ITrieNode<T>`: topic id `t`, branch discriminant and entries `b` (a JS
`Map` also iterates in insertion order, so both branch representations carry
the same entry list), payload list `p` (`createTrie` always initialises `p`
to `[]`, so the payload is always an array), and leaf flag `l`. -/
inductive TrieNode (α : Type) where
  | mk (t : Option Nat) (bk : BranchKind) (bi : List (Nat × TrieNode α)) (p : List α) (l : Bool)

/-- Topic id of a node. -/
def TrieNode.t {α} : TrieNode α → Option Nat
  | .mk t _ _ _ _ => t

/-- Branch discriminant of a node. -/
def TrieNode.bk {α} : TrieNode α → BranchKind
  | .mk _ bk _ _ _ => bk

/-- Branch entries of a node. -/
def TrieNode.bi {α} : TrieNode α → List (Nat × TrieNode α)
  | .mk _ _ bi _ _ => bi

/-- Payload list of a node. -/
def TrieNode.p {α} : TrieNode α → List α
  | .mk _ _ _ p _ => p

/-- Leaf flag of a node. -/
def TrieNode.l {α} : TrieNode α → Bool
  | .mk _ _ _ _ l => l

/-- `BranchOps.get`: first entry with the given key. -/
def branchGet {α} : List (Nat × TrieNode α) → Nat → Option (TrieNode α)
  | [], _ => none
  | (k', v) :: rest, k => if k' = k then some v else branchGet rest k

/-- `BranchOps.set`: replace the first entry with the given key in place, or
push a new entry at the end. -/
def branchSet {α} : List (Nat × TrieNode α) → Nat → TrieNode α → List (Nat × TrieNode α)
  | [], k, v => [(k, v)]
  | (k', v') :: rest, k, v =>
    if k' = k then (k, v) :: rest else (k', v') :: branchSet rest k v

/-- `DEFAULT_ARRAY_TO_MAP_THRESHOLD`. -/
def defaultArrayToMapThreshold : Nat := 32

/-- `createTrie`: fresh node with an array branch, empty payload, the given
leaf flag, and `t` interned from the topic unless the topic is `""`
(`topic ? stringPool.intern(topic) : undefined`). -/
def createTrie {α} (isLeaf : Bool) (topic : String) (pool : SPool) : TrieNode α × SPool :=
  if topic = "" then (.mk none .array [] [] isLeaf, pool)
  else
    let r := pool.intern topic
    (.mk (some r.1) .array [] [] isLeaf, r.2)

/-- The helper `insert(trie, subjectTopics, payload, stringPool)`: walk the
topics, interning each; reuse an existing child or create one (promoting the
branch array to a map when the child count has reached the threshold — the
promotion keeps the same entries); at the final node set `l` and append the
payload to `p` (the source's fallback for a non-array `p` at lines 337–344 is
unreachable because `createTrie` always initialises `p` to an array).  The
`isLast`/not-last duplication in the source differs only in the `isLeaf`
value passed to `createTrie`. -/
def insertGo {α} : List String → TrieNode α → List α → SPool → TrieNode α × SPool
  | [], n, payload, pool => (.mk n.t n.bk n.bi (n.p ++ payload) true, pool)
  | topic :: rest, n, payload, pool =>
    let ri := pool.intern topic
    match branchGet n.bi ri.1 with
    | some child =>
      let rc := insertGo rest child payload ri.2
      (.mk n.t n.bk (branchSet n.bi ri.1 rc.1) n.p n.l, rc.2)
    | none =>
      let bk' := if defaultArrayToMapThreshold ≤ n.bi.length then BranchKind.map else n.bk
      let rc0 := createTrie (α := α) rest.isEmpty topic ri.2
      let rc := insertGo rest rc0.1 payload rc0.2
      (.mk n.t bk' (branchSet n.bi ri.1 rc.1) n.p n.l, rc.2)

/-- Errors raised by the trie (`InvalidSubjectError`, `InvalidPayloadError`). -/
inductive TrieErr where
  | invalidSubject (subject reason : String)
  | invalidPayload (reason : String)
deriving DecidableEq, Repr

/-- State of a `NatsTrie` instance: the root node and the instance's own
string pool. -/
structure TrieState (α : Type) where
  trieRoot : TrieNode α
  stringPool : SPool

/-- The `NatsTrie` constructor: `createTrie` root (topic `""`, so `t` is
`undefined`) and a pool initialised with the wildcard strings. -/
def natsTrieNew {α} : TrieState α :=
  { trieRoot := .mk none .array [] [] false, stringPool := SPool.init ["*", ">"] }

/-- `NatsTrie.insert`: validations in source order, then the walking insert.
A JS array payload is always truthy, so of `!payload || payload.some(p => !p)`
only the element check `payload.some(p => !p)` can fire; element falsiness is
abstracted by `falsy`.  Errors are thrown before any mutation, so the state
component is returned unchanged on every error path. -/
def natsTrieInsert {α} (st : TrieState α) (falsy : α → Bool) (subject : String)
    (payload : List α) : TrieState α × Option TrieErr :=
  if subject = "" then (st, some (.invalidSubject subject "must be defined"))
  else if payload.any falsy then (st, some (.invalidPayload "must be defined"))
  else
    let topics := jsSplit subject
    if topics.length = 0 then (st, some (.invalidSubject subject "cannot be empty"))
    else if topics.any (fun topic => topic == "") then
      (st, some (.invalidSubject subject "cannot contain empty topics"))
    else
      match firstIdx topics ">" with
      | some i =>
        if i ≠ topics.length - 1 then
          (st, some (.invalidSubject subject "\">\" must be the last topic"))
        else
          let r := insertGo topics st.trieRoot payload st.stringPool
          ({ trieRoot := r.1, stringPool := r.2 }, none)
      | none =>
        let r := insertGo topics st.trieRoot payload st.stringPool
        ({ trieRoot := r.1, stringPool := r.2 }, none)

/-- Array-branch scan of `_search`: iterate the entries in order; `t` is
truthy (`if (t && child)`) when the id is nonzero; a `>` child is pushed
immediately, an exact or `*` child is explored through `recur` (the
continuation `_search(child, index + 1)`). -/
def matchScan {α} (recur : TrieNode α → SPool → List (TrieNode α) × SPool)
    (gtId starId topicId : Nat) :
    List (Nat × TrieNode α) → SPool → List (TrieNode α) × SPool
  | [], pool => ([], pool)
  | (t, child) :: es, pool =>
    if t ≠ 0 then
      if t = gtId then
        let r := matchScan recur gtId starId topicId es pool
        (child :: r.1, r.2)
      else if t = starId ∨ t = topicId then
        let r1 := recur child pool
        let r2 := matchScan recur gtId starId topicId es r1.2
        (r1.1 ++ r2.1, r2.2)
      else matchScan recur gtId starId topicId es pool
    else matchScan recur gtId starId topicId es pool

/-- `_search(node, index)` of the helper `match`: at the end of the subject a
node is collected if it is a leaf or is the `>` node; otherwise the current
token is interned and the children are explored — in entry order for an
array branch, and exact, then `*`, then `>` for a map branch (a `>` child is
collected without descending). -/
def matchGo {α} (gtId starId : Nat) :
    List String → TrieNode α → SPool → List (TrieNode α) × SPool
  | [], n, pool => (if n.l || n.t == some gtId then [n] else [], pool)
  | topic :: rest, n, pool =>
    let ri := pool.intern topic
    match n.bk with
    | .array => matchScan (matchGo gtId starId rest) gtId starId ri.1 n.bi ri.2
    | .map =>
      let r1 :=
        match branchGet n.bi ri.1 with
        | some c => matchGo gtId starId rest c ri.2
        | none => ([], ri.2)
      let r2 :=
        match branchGet n.bi starId with
        | some c => matchGo gtId starId rest c r1.2
        | none => ([], r1.2)
      let r3 :=
        match branchGet n.bi gtId with
        | some c => [c]
        | none => []
      (r1.1 ++ r2.1 ++ r3, r2.2)

/-- `NatsTrie.match`: split the subject, intern the wildcard ids
(`stringPool.intern("*")`, `stringPool.intern(">")` at the top of the helper
`match`), and run the traversal from the root. -/
def natsTrieMatch {α} (st : TrieState α) (subject : String) :
    List (TrieNode α) × TrieState α :=
  let rStar := st.stringPool.intern "*"
  let rGt := rStar.2.intern ">"
  let r := matchGo rGt.1 rStar.1 (jsSplit subject) st.trieRoot rGt.2
  (r.1, { trieRoot := st.trieRoot, stringPool := r.2 })

/-! ## Router (`src/index.ts`) -/

/-- `NatsMetadataValue`: `string | number | boolean | null`. -/
inductive MetaValue where
  | s (v : String)
  | n (v : Nat)
  | b (v : Bool)
  | null
deriving DecidableEq, Repr

/-- A metadata object: ordered own properties of a JS object. -/
abbrev Metadata : Type := List (String × MetaValue)

/-- JS property assignment `obj[k] = v`: overwrite in place or append. -/
def metaSet : Metadata → String → MetaValue → Metadata
  | [], k, v => [(k, v)]
  | (k', v') :: rest, k, v =>
    if k' = k then (k, v) :: rest else (k', v') :: metaSet rest k v

/-- `Object.assign(base, src)` restricted to two objects: set each own
property of `src` on `base` in order. -/
def metaAssign (base src : Metadata) : Metadata :=
  src.foldl (fun acc kv => metaSet acc kv.1 kv.2) base

/-- Property read `obj[k]`. -/
def metaGet (m : Metadata) (k : String) : Option MetaValue :=
  (m.find? (fun kv => kv.1 == k)).map (fun kv => kv.2)

/-- `NatsHandlersPayload`: the handler group — handler functions (opaque
tags) plus the metadata object. -/
structure NatsHandlersPayload where
  handlers : List Nat
  metadata : Metadata
deriving DecidableEq, Repr

/-- `NatsRun.wrapHandler`: wrap a single handler function into a group with
the default internal metadata. -/
def wrapHandler (h : Nat) : NatsHandlersPayload :=
  { handlers := [h],
    metadata := [("_insertOrder", .n 0), ("_pattern", .s ""), ("_lastData", .null)] }

/-- `NatsRun.addPayloadMetadata`:
`Object.assign({}, payload.metadata, ...metadata)` over the payload's
metadata followed by the argument objects in order. -/
def addPayloadMetadata (p : NatsHandlersPayload) (ms : List Metadata) : NatsHandlersPayload :=
  { handlers := p.handlers, metadata := ms.foldl metaAssign p.metadata }

/-- One element of the value passed to `add`: a handler function, a
well-shaped `NatsHandlersPayload` (`isHandlersPayload` accepts it), or any
other value (`isHandlersPayload` rejects it). -/
inductive AddItem where
  | fnc (h : Nat)
  | pay (p : NatsHandlersPayload)
  | bad
deriving DecidableEq

/-- The `handle` argument of `add`: a single value or an array. -/
inductive AddArg where
  | one (x : AddItem)
  | many (xs : List AddItem)

/-- Errors thrown by `NatsRun` (`NatsRunSubjectError`, `NatsRunHandlerError`). -/
inductive RunErr where
  | subjectError (subject reason : String)
  | handlerError (reason : String)
deriving DecidableEq, Repr

/-- Stamp a group as `add` does:
`addPayloadMetadata(payload, metadata, { _insertOrder: count++, _pattern: pattern })`. -/
def stampGroup (p : NatsHandlersPayload) (metadata : Metadata) (pattern : String)
    (count : Nat) : NatsHandlersPayload :=
  addPayloadMetadata p [metadata, [("_insertOrder", .n count), ("_pattern", .s pattern)]]

/-- The loop of `add` over an array argument: each function element is
wrapped and stamped with its own `count++` value, each payload element is
stamped likewise, and any other element aborts with a `NatsRunHandlerError`
(`this.count` keeps the increments already performed). -/
def buildGroups (pattern : String) (metadata : Metadata) :
    List AddItem → Nat → Except RunErr (List NatsHandlersPayload) × Nat
  | [], count => (.ok [], count)
  | .fnc h :: rest, count =>
    let g := stampGroup (wrapHandler h) metadata pattern count
    match buildGroups pattern metadata rest (count + 1) with
    | (.ok ps, count') => (.ok (g :: ps), count')
    | (.error e, count') => (.error e, count')
  | .pay p :: rest, count =>
    let g := stampGroup p metadata pattern count
    match buildGroups pattern metadata rest (count + 1) with
    | (.ok ps, count') => (.ok (g :: ps), count')
    | (.error e, count') => (.error e, count')
  | .bad :: _, count =>
    (.error (.handlerError "Array must contain NatsHandlersPayload or Handler functions"), count)

/-- State of a `NatsRun` instance: the insertion counter and the trie.  The
sort strategy plays no role in the modelled claims' outcomes (see
`natsRunMatch`), and the default `'specificity'` strategy is assumed. -/
structure RouterState where
  count : Nat
  trie : TrieState NatsHandlersPayload

/-- A fresh `NatsRun` router. -/
def natsRunNew : RouterState := { count := 0, trie := natsTrieNew }

/-- Map trie errors to the router's error classes (`add`'s catch block). -/
def mapTrieErr : TrieErr → RunErr
  | .invalidSubject subject reason => .subjectError subject reason
  | .invalidPayload reason => .handlerError reason

/-- `NatsRun.add`: normalise the argument into stamped groups (advancing
`this.count` once per element) and insert them into the trie
(`NatsHandlersPayload` objects are JS objects, hence never falsy).  Errors
are surfaced while the mutations already performed (`count`, and none for
the trie) persist in the state. -/
def natsRunAdd (st : RouterState) (pattern : String) (arg : AddArg)
    (metadata : Metadata) : RouterState × Option RunErr :=
  let built : Except RunErr (List NatsHandlersPayload) × Nat :=
    match arg with
    | .one (.fnc h) => (.ok [stampGroup (wrapHandler h) metadata pattern st.count], st.count + 1)
    | .one (.pay p) => (.ok [stampGroup p metadata pattern st.count], st.count + 1)
    | .one .bad =>
      ((Except.error (RunErr.handlerError
        "Must be a NatsHandlersPayload, a Handler function, or an array of either")), st.count)
    | .many xs => buildGroups pattern metadata xs st.count
  match built with
  | (.error e, count') => ({ st with count := count' }, some e)
  | (.ok groups, count') =>
    match natsTrieInsert st.trie (fun _ => false) pattern groups with
    | (trie', none) => ({ count := count', trie := trie' }, none)
    | (trie', some te) => ({ count := count', trie := trie' }, some (mapTrieErr te))

/-- `NatsRun.calculateSpecificity`: fold over the pattern's topics adding 1
for `>`, 2 for `*`, 3 for a literal. -/
def calculateSpecificity (pattern : String) : Nat :=
  (jsSplit pattern).foldl
    (fun acc topic => if topic == ">" then acc + 1 else if topic == "*" then acc + 2 else acc + 3) 0

/-- JavaScript runtime errors of the modelled fragment. -/
inductive JsErr where
  | typeError
deriving DecidableEq, Repr

/-- `NatsRun.match` (src/index.ts lines 274–298), translated faithfully:

* line 275 collects the trie nodes (mutating the instance's pool);
* line 276's `matches.flat()` is the identity — trie nodes are not arrays;
* line 277 reads `flatMap(({ payload }) => payload)`, but `ITrieNode` stores
  its payload under the field `p`, so destructuring `payload` yields
  `undefined` for every matched node;
* the `sort` calls at lines 280–295 leave the list unchanged under every
  strategy, because `Array.prototype.sort` moves `undefined` elements to the
  end without ever passing them to the comparator, and here every element is
  `undefined`;
* line 297's `flatMap(({ handlers }) => handlers)` destructures `handlers`
  out of `undefined` and hence throws a `TypeError` as soon as the list is
  non-empty.

The result is therefore `[]` when no node matched and a thrown `TypeError`
otherwise. -/
def natsRunMatch (st : RouterState) (subject : String) :
    Except JsErr (List Nat) × RouterState :=
  let r := natsTrieMatch st.trie subject
  let unsortedPayloads : List (Option NatsHandlersPayload) := r.1.map (fun _ => none)
  let sortedPayloads := unsortedPayloads
  match sortedPayloads with
  | [] => (.ok [], { st with trie := r.2 })
  | _ :: _ => (.error .typeError, { st with trie := r.2 })

/-! ## Handler chain (`NatsRun.handle`, `NatsRun.objectifyData`) -/

/-- JavaScript values passed as `next(data)` or stored in a context.  The
`typeof data === 'function'` branch of `objectifyData` (data-producing
callbacks) lies outside the modelled fragment; `num` carries the numeric
payload opaquely. -/
inductive JsVal where
  | s (v : String)
  | n (v : Int)
  | b (v : Bool)
  | null
  | obj (fields : List (String × JsVal))

/-- An invocation context: ordered own properties of a JS object. -/
abbrev Ctx : Type := List (String × JsVal)

/-- JS property assignment on a context. -/
def ctxSet : Ctx → String → JsVal → Ctx
  | [], k, v => [(k, v)]
  | (k', v') :: rest, k, v =>
    if k' = k then (k, v) :: rest else (k', v') :: ctxSet rest k v

/-- Object spread `{ ...a, ...b }`: `a`'s properties updated and extended by
`b`'s own properties in order. -/
def ctxMerge (a b : Ctx) : Ctx :=
  b.foldl (fun acc kv => ctxSet acc kv.1 kv.2) a

/-- Property read on a context. -/
def ctxGet (c : Ctx) (k : String) : Option JsVal :=
  (c.find? (fun kv => kv.1 == k)).map (fun kv => kv.2)

/-- `NatsRun.objectifyData` on non-function data: a non-null object is
returned as-is; a string, number or boolean is wrapped as
`{ _lastData: data }`; everything else (`undefined`, `null`) becomes `{}`. -/
def objectifyData (data : Option JsVal) (_ctx : Ctx) : Ctx :=
  match data with
  | some (.obj fields) => fields
  | some (.s v) => [("_lastData", .s v)]
  | some (.n v) => [("_lastData", .n v)]
  | some (.b v) => [("_lastData", .b v)]
  | some .null => []
  | none => []

/-- Line 320 of `handle`'s `next`:
`ctx = { ...ctx, ...(await this.objectifyData(data, ctx)) }` — the context
the next handler in the chain is invoked with. -/
def nextContext (ctx : Ctx) (data : Option JsVal) : Ctx :=
  ctxMerge ctx (objectifyData data ctx)

/-- Behaviour of a handler in the chain: `stop ret` returns `ret` (with
`none` for `undefined`) without calling `next`; `callNext data ret` awaits
`next(data)` once and then returns its result (`ret = none`) or its own
value (`ret = some r`, where `r = none` returns `undefined`). -/
inductive HandlerBeh where
  | stop (ret : Option Ctx)
  | callNext (data : Option JsVal) (ret : Option (Option Ctx))

/-- Run one handler against the rest of the chain, mirroring `handle`'s
`next` closure over the shared mutable `matches` and `ctx`: returns the
handler's own return value together with the final value of the mutated
`ctx`.  When `next` is called, `ctx` is merged with the objectified data; if
the chain is exhausted `next` returns `ctx`, otherwise it returns
`nhandler(msg, ctx, next) ?? ctx` where `ctx` is read after the nested call
completed. -/
def runHandler : HandlerBeh → List HandlerBeh → Ctx → Option Ctx × Ctx
  | .stop r, _, ctx => (r, ctx)
  | .callNext data ret, rest, ctx =>
    let ctx1 := nextContext ctx data
    match rest with
    | [] =>
      match ret with
      | none => (some ctx1, ctx1)
      | some r => (r, ctx1)
    | h2 :: rest2 =>
      let r2 := runHandler h2 rest2 ctx1
      let nres := r2.1.getD r2.2
      match ret with
      | none => (some nres, r2.2)
      | some r => (r, r2.2)

/-- `NatsRun.handle`: compute the matched handler list, return the context
unchanged when it is empty, otherwise run the chain and return
`await handler(...) ?? ctx`; the `TypeError` thrown inside `this.match`
propagates out as a rejection.  `beh` assigns behaviours to handler tags;
the message argument is passed through to handlers and does not influence
the chain bookkeeping. -/
def natsRunHandle (beh : Nat → HandlerBeh) (st : RouterState) (subject : String)
    (ctx : Ctx) : Except JsErr Ctx × RouterState :=
  match natsRunMatch st subject with
  | (.error e, st') => (.error e, st')
  | (.ok hs, st') =>
    match hs.map beh with
    | [] => (.ok ctx, st')
    | h :: rest =>
      let r := runHandler h rest ctx
      (.ok (r.1.getD r.2), st')

/-! ## Specification-side definitions

These definitions follow the words of the specification (§4.3, §6, the
glossary and the claims), for comparison with the embedded code. -/

/-- Whether a pattern token is one of the two wildcard tokens. -/
def isWildcard (t : String) : Bool := t == "*" || t == ">"

/-- Structural satisfaction of a pattern by a subject, per the spec: each
literal pattern token equals the subject token at its position, `*` matches
exactly one subject token at its position, and a trailing `>` matches one or
more remaining subject tokens. -/
def specSatisfies : List String → List String → Bool
  | [], [] => true
  | [">"], _ :: _ => true
  | p :: ps, s :: ss =>
    (if p == ">" then false else p == "*" || p == s) && specSatisfies ps ss
  | _, _ => false

/-- The spec's classification of invalid patterns: the empty string, a
pattern whose `.`-split contains an empty segment, or a pattern where `>`
appears anywhere but as the final token. -/
def specInvalidPattern (p : String) : Bool :=
  p == "" || (jsSplit p).any (fun t => t == "") ||
    (jsSplit p).dropLast.any (fun t => t == ">")

/-- The spec's per-token specificity weight: `>` = 1, `*` = 2, literal = 3. -/
def tokenWeight (t : String) : Nat :=
  if t == ">" then 1 else if t == "*" then 2 else 3

/-- Number of literal (non-wildcard) segments of a token list. -/
def countLiterals (ts : List String) : Nat :=
  (ts.filter (fun t => !isWildcard t)).length

/-- Token-level domination: the second token equals the first, or the first
is a literal where the second is a wildcard ("all else equal" in claim C8). -/
def tokDominates (a b : String) : Bool := a == b || (!isWildcard a && isWildcard b)

/-- Pattern-level domination: same number of segments, pointwise
`tokDominates`. -/
def patDominates (as bs : List String) : Bool :=
  as.length == bs.length && (as.zip bs).all (fun ab => tokDominates ab.1 ab.2)

/-- The `_pattern` string stamped on a handler group (`g.metadata._pattern`;
always present on groups produced by `add`). -/
def patternOf (g : NatsHandlersPayload) : String :=
  match metaGet g.metadata "_pattern" with
  | some (.s s) => s
  | _ => ""

/-- The comparator of the `'specificity'` strategy
(`(a, b) => calculateSpecificity(b.metadata._pattern) - calculateSpecificity(a.metadata._pattern)`)
as the ordering relation it induces: `a` may stay before `b` iff the
comparator is non-positive. -/
def specificityLe (a b : NatsHandlersPayload) : Bool :=
  calculateSpecificity (patternOf b) ≤ calculateSpecificity (patternOf a)

/-- The sort stage of `match` under the `'specificity'` strategy:
`Array.prototype.sort` is a stable sort that orders consistently with its
comparator, modelled by `mergeSort`. -/
def sortBySpecificity (ps : List NatsHandlersPayload) : List NatsHandlersPayload :=
  ps.mergeSort specificityLe

/-- Auxiliary characterisation (proof-side): the linear chain of nodes that
inserting a single pattern with token ids `i :: ids` into an empty trie
creates below the root; the payload sits at the terminal node. -/
def chainAux {α} : Nat → List Nat → List α → TrieNode α
  | i, [], pl => .mk (some i) .array [] pl true
  | i, j :: rest, pl => .mk (some i) .array [(j, chainAux j rest pl)] [] false

/-- Auxiliary (proof-side): correspondence between a pattern's tokens and the
branch keys along its path — `>` carries the reserved id 2, `*` the reserved
id 1, and a literal its pooled id, which is at least 3. -/
def PatIds (pool : SPool) : List String → List Nat → Prop :=
  List.Forall₂ (fun t j =>
    (t = ">" ∧ j = 2) ∨ (t = "*" ∧ j = 1) ∨
      (t ≠ ">" ∧ t ≠ "*" ∧ pool.lookupStr t = some j ∧ 3 ≤ j))

/-- Auxiliary (proof-side): one pool extends another when it preserves every
established string-to-id binding. -/
def PoolExtends (sp sp' : SPool) : Prop :=
  ∀ s i, sp.lookupStr s = some i → sp'.lookupStr s = some i

/-- Auxiliary (proof-side): invariant of the pool owned by a `NatsTrie` — the
wildcards hold the two reserved ids `1` and `2`, and every other interned
string has an id of at least `3`. -/
def PoolInv (sp : SPool) : Prop :=
  sp.lookupStr "*" = some 1 ∧ sp.lookupStr ">" = some 2 ∧ 3 ≤ sp.nextId ∧
    ∀ e ∈ sp.pool, e.1 ≠ "*" → e.1 ≠ ">" → 3 ≤ e.2

/-- The pool a `NatsTrie` is constructed with. -/
def natsTriePool : SPool := SPool.init ["*", ">"]

/-- Handler groups of the log registered under the root-level `>` pattern. -/
def gtPayloads {α} (log : List (String × List α)) : List α :=
  (log.filter (fun e => e.1 == ">")).flatMap (fun e => e.2)

/-- Handler groups of the log registered under the root-level `*` pattern. -/
def starPayloads {α} (log : List (String × List α)) : List α :=
  (log.filter (fun e => e.1 == "*")).flatMap (fun e => e.2)

/-- Build a trie by inserting a registration log in order. -/
def buildTrie {α} (log : List (String × List α)) : TrieState α :=
  log.foldl (fun st e => (natsTrieInsert st (fun _ => false) e.1 e.2).1) natsTrieNew

/-- Auxiliary (proof-side): well-formedness of a trie's pool — wildcard
bindings, id bounds, no empty-string key, and id injectivity via
duplicate-free ids. -/
def PoolWF (sp : SPool) : Prop :=
  sp.lookupStr "*" = some 1 ∧ sp.lookupStr ">" = some 2 ∧
    (∀ e ∈ sp.pool, 1 ≤ e.2 ∧ e.2 < sp.nextId ∧ e.1 ≠ "") ∧
    (sp.pool.map Prod.snd).Nodup

/-- Auxiliary (proof-side): invariant tying the root level of a trie to the
registration log that built it (`gtId = 2`, `starId = 1`). -/
def RootInv {α} (st : TrieState α) (log : List (String × List α)) : Prop :=
  PoolWF st.stringPool ∧
    (∀ e ∈ st.trieRoot.bi,
      e.2.t = some e.1 ∧ ∃ s, st.stringPool.lookupStr s = some e.1) ∧
    (st.trieRoot.bi.map Prod.fst).Nodup ∧
    (match branchGet st.trieRoot.bi 2 with
     | none => log.all (fun e => !(e.1 == ">"))
     | some c => c.t = some 2 ∧ c.p = gtPayloads log) ∧
    (match branchGet st.trieRoot.bi 1 with
     | none => log.all (fun e => !(e.1 == "*"))
     | some c => c.t = some 1 ∧ c.p = starPayloads log ∧
         (c.l = true ↔ log.any (fun e => e.1 == "*")))

/-- Whether a JS value is a string, number or boolean (the scalar shapes of
claim C5). -/
def isScalar : JsVal → Bool
  | .s _ => true
  | .n _ => true
  | .b _ => true
  | _ => false

/-! ## Claim C1, C2, C10: the router's match pipeline -/

/-- C1: the claim states that for every registration set and subject,
`NatsRun.match(S)` includes a handler registered under `P` iff `S`
structurally satisfies `P`.  On the code this fails: after registering
handler `10` under the pattern `"a"`, the trie does hold the registration
for the subject `"a"` (first conjunct), yet `NatsRun.match("a")` throws a
`TypeError` instead of returning the handler (second conjunct), because line
277 of `src/index.ts` destructures the nonexistent field `payload` (the trie
node's field is `p`) and line 297 then destructures `handlers` out of
`undefined`. -/
theorem natsrun_c1_router_match_throws :
    ((natsTrieMatch (natsRunAdd natsRunNew "a" (.one (.fnc 10)) []).1.trie "a").1.flatMap
        (fun n => n.p)).flatMap (fun g => g.handlers) = [10]
    ∧ (natsRunMatch (natsRunAdd natsRunNew "a" (.one (.fnc 10)) []).1 "a").1 =
        .error .typeError :=
  ⟨rfl, rfl⟩

/-- C2: the claim states that under the default `'specificity'` strategy
`NatsRun.match(S)` orders matched handler groups by descending total weight.
On the code this fails: with `"a.b"` (weight 6) and `"a.>"` (weight 4) both
matching the subject `"a.b"`, `match` throws a `TypeError` instead of
returning the ordered handlers, for the same field-name slip as in C1 (the
comparator itself is never reached, because `Array.prototype.sort` never
passes `undefined` elements to it). -/
theorem natsrun_c2_router_sort_throws :
    calculateSpecificity "a.b" = 6 ∧ calculateSpecificity "a.>" = 4
    ∧ (natsRunMatch
        (natsRunAdd (natsRunAdd natsRunNew "a.b" (.one (.fnc 1)) []).1
          "a.>" (.one (.fnc 2)) []).1 "a.b").1 = .error .typeError :=
  ⟨rfl, rfl, rfl⟩

/-- C10: the claim states that `handle` always resolves to a defined context
object when every matched handler returns a context or nothing.  On the code
this fails: with one handler registered under `"a"` that returns nothing and
never calls `next` (behaviour `.stop none`), `handle("a")` rejects with the
`TypeError` thrown inside `this.match` (first conjunct); only the zero-match
path resolves, returning the initial context unchanged (second conjunct). -/
theorem natsrun_c10_handle_rejects :
    (natsRunHandle (fun _ => .stop none)
        (natsRunAdd natsRunNew "a" (.one (.fnc 10)) []).1 "a" []).1 = .error .typeError
    ∧ (natsRunHandle (fun _ => .stop none)
        (natsRunAdd natsRunNew "a" (.one (.fnc 10)) []).1 "b"
        [("k", .b true)]).1 = .ok [("k", .b true)] :=
  ⟨rfl, rfl⟩

/-! ## Claim C6: matching the empty subject — counterexample -/

/-- C6 counterexample: the claim states that `match("")` includes a handler
iff it was registered under the pattern `">"`.  False on the code: the empty
subject splits into the single empty token `[""]`, which a root-level `*`
matches, so after registering payload `5` under `"*"` (and nothing under
`">"`), `match("")` returns payload `5`. -/
theorem natsrun_c6_counterexample :
    ¬ (∀ g : Nat,
        g ∈ ((natsTrieMatch
            (natsTrieInsert (natsTrieNew (α := Nat)) (fun _ => false) "*" [5]).1
            "").1.flatMap (fun n => n.p)) →
          ∃ pl, (">", pl) ∈ [("*", [5])] ∧ g ∈ pl) := by
  intro h
  rcases h 5 (by decide) with ⟨pl, hmem, _⟩
  simp only [List.mem_singleton, Prod.mk.injEq] at hmem
  exact absurd hmem.1 (by decide)

/-! ## Claim C7: wildcard ids in the token pool — counterexample -/

/-- C7 counterexample: the claim states that the wildcard ids are assigned
without consuming the literal id space and that interning wildcards does not
advance the literal id counter.  False on the code: the pool has a single id
counter `nextId`, and the constructor's interning of `"*"` advances it from
1 to 2 (second conjunct: after interning both wildcards the counter stands
at 3, so literals start at 3 instead of 1). -/
theorem natsrun_c7_counterexample :
    ¬ ((SPool.intern { pool := [], strings := [], nextId := 1 } "*").2.nextId =
        ({ pool := [], strings := [], nextId := 1 } : SPool).nextId)
    ∧ natsTriePool.nextId = 3 :=
  ⟨by decide, rfl⟩

/-! ## Claim C9: sequence-number stamping in `add` — counterexample -/

/-- C9 counterexample: the claim states that one `add` call with a list of
handler functions stamps every handler with the same sequence number and
advances the router's counter once.  False on the code: `add("a", [f10, f11])`
stamps the two resulting groups with `_insertOrder` 0 and 1 (`this.count++`
runs once per element), and the counter ends at 2, not at `0 + 1`. -/
theorem natsrun_c9_counterexample :
    ((natsTrieMatch (natsRunAdd natsRunNew "a" (.many [.fnc 10, .fnc 11]) []).1.trie
        "a").1.flatMap (fun n => n.p)).map (fun g => metaGet g.metadata "_insertOrder") =
      [some (.n 0), some (.n 1)]
    ∧ (natsRunAdd natsRunNew "a" (.many [.fnc 10, .fnc 11]) []).1.count = 2
    ∧ ¬ ((natsRunAdd natsRunNew "a" (.many [.fnc 10, .fnc 11]) []).1.count =
        natsRunNew.count + 1) :=
  ⟨rfl, rfl, by decide⟩

/-! ## Claim C3: invalid patterns are rejected before any mutation -/

/-- Splitting never produces the empty list. -/
theorem jsSplitAux_ne_nil (l cur : List Char) : jsSplitAux l cur ≠ [] := by
  induction l generalizing cur with
  | nil => simp [jsSplitAux]
  | cons c cs ih =>
    simp only [jsSplitAux]
    split
    · simp
    · exact ih _

/-- `jsSplit` never produces the empty list. -/
theorem jsSplit_ne_nil (s : String) : jsSplit s ≠ [] := jsSplitAux_ne_nil _ _

/-- If `x` occurs before the last position, its first occurrence is a
non-final index. -/
theorem dropLast_any_firstIdx (l : List String) (x : String)
    (h : l.dropLast.any (fun t => t == x) = true) :
    ∃ i, firstIdx l x = some i ∧ i + 1 < l.length := by
  induction l with
  | nil => simp at h
  | cons a rest ih =>
    by_cases hr : rest = []
    · subst hr; simp at h
    · rw [List.dropLast_cons_of_ne_nil hr, List.any_cons] at h
      by_cases hax : a = x
      · refine ⟨0, by simp [firstIdx, hax], ?_⟩
        have : rest.length ≠ 0 := fun h0 => hr (List.eq_nil_of_length_eq_zero h0)
        simp only [List.length_cons]
        omega
      · have hx : rest.dropLast.any (fun t => t == x) = true := by
          rcases Bool.or_eq_true_iff.mp h with h1 | h1
          · exact absurd (by simpa using h1) hax
          · exact h1
        obtain ⟨i, hi, hlt⟩ := ih hx
        refine ⟨i + 1, by simp [firstIdx, hax, hi], ?_⟩
        simp only [List.length_cons]
        omega

/-- C3: inserting any invalid pattern (empty string, empty segment, or a
non-final `>`) fails with an `InvalidSubjectError` and returns the trie
state unchanged, so every subsequent match returns exactly what it returned
before the failed insert. -/
theorem natsrun_c3_invalid_insert {α : Type} (st : TrieState α) (falsy : α → Bool)
    (p : String) (payload : List α) (hp : specInvalidPattern p = true)
    (hpl : payload.any falsy = false) :
    (natsTrieInsert st falsy p payload).1 = st
    ∧ (∃ r, (natsTrieInsert st falsy p payload).2 = some (.invalidSubject p r))
    ∧ ∀ S, (natsTrieMatch (natsTrieInsert st falsy p payload).1 S).1 =
        (natsTrieMatch st S).1 := by
  obtain ⟨r, hr⟩ :
      ∃ r, natsTrieInsert st falsy p payload = (st, some (.invalidSubject p r)) := by
    by_cases hP : p = ""
    · exact ⟨"must be defined", by simp [natsTrieInsert, hP]⟩
    · by_cases hlen : (jsSplit p).length = 0
      · exact ⟨"cannot be empty", by simp [natsTrieInsert, hP, hpl, hlen]⟩
      · by_cases hcont : (jsSplit p).any (fun t => t == "") = true
        · exact ⟨"cannot contain empty topics",
            by simp [natsTrieInsert, hP, hpl, hlen, hcont]⟩
        · have hgt : (jsSplit p).dropLast.any (fun t => t == ">") = true := by
            have hP' : (p == "") = false := by simpa using hP
            have hc : ((jsSplit p).any (fun t => t == "")) = false :=
              Bool.eq_false_iff.mpr hcont
            have hp' := hp
            unfold specInvalidPattern at hp'
            rw [hP', hc] at hp'
            simpa using hp'
          obtain ⟨i, hfi, hlt⟩ := dropLast_any_firstIdx _ _ hgt
          have hne : i ≠ (jsSplit p).length - 1 := by omega
          exact ⟨"\">\" must be the last topic",
            by simp [natsTrieInsert, hP, hpl, hlen, hcont, hfi, hne]⟩
  exact ⟨by rw [hr], ⟨r, by rw [hr]⟩, fun S => by rw [hr]⟩

/-- Witness for C3 at the concrete invalid pattern `"a..b"`. -/
theorem natsrun_c3_witness :
    specInvalidPattern "a..b" = true
    ∧ (natsTrieInsert (natsTrieNew (α := Nat)) (fun _ => false) "a..b" [1]).1 =
        natsTrieNew
    ∧ (∃ r, (natsTrieInsert (natsTrieNew (α := Nat)) (fun _ => false) "a..b" [1]).2 =
        some (.invalidSubject "a..b" r)) := by
  have h := natsrun_c3_invalid_insert (natsTrieNew (α := Nat)) (fun _ => false)
    "a..b" [1] (by decide) (by decide)
  exact ⟨by decide, h.1, h.2.1⟩

/-! ## Claim C5: context merging in the `next` continuation -/

/-- Property read on a cons cell. -/
theorem ctxGet_cons (k0 : String) (v0 : JsVal) (rest : Ctx) (k : String) :
    ctxGet ((k0, v0) :: rest) k = if k0 = k then some v0 else ctxGet rest k := by
  by_cases h : k0 = k
  · simp [ctxGet, List.find?_cons, h]
  · simp only [ctxGet, List.find?_cons]
    have hb : ((k0, v0).1 == k) = false := by simpa using h
    rw [hb, if_neg h]

/-- Property read after a property write at the same key. -/
theorem ctxGet_ctxSet_self (c : Ctx) (k : String) (v : JsVal) :
    ctxGet (ctxSet c k v) k = some v := by
  induction c with
  | nil =>
    show ctxGet [(k, v)] k = some v
    rw [ctxGet_cons, if_pos rfl]
  | cons kv rest ih =>
    obtain ⟨k0, v0⟩ := kv
    show ctxGet (if k0 = k then (k, v) :: rest else (k0, v0) :: ctxSet rest k v) k = some v
    by_cases h : k0 = k
    · rw [if_pos h, ctxGet_cons, if_pos rfl]
    · rw [if_neg h, ctxGet_cons, if_neg h]
      exact ih

/-- Property read after a property write at a different key. -/
theorem ctxGet_ctxSet_other (c : Ctx) (k k' : String) (v : JsVal) (h : k' ≠ k) :
    ctxGet (ctxSet c k v) k' = ctxGet c k' := by
  have hk : k ≠ k' := fun hh => h hh.symm
  induction c with
  | nil =>
    show ctxGet [(k, v)] k' = ctxGet [] k'
    rw [ctxGet_cons, if_neg hk]
  | cons kv rest ih =>
    obtain ⟨k0, v0⟩ := kv
    show ctxGet (if k0 = k then (k, v) :: rest else (k0, v0) :: ctxSet rest k v) k' =
      ctxGet ((k0, v0) :: rest) k'
    by_cases h0 : k0 = k
    · rw [if_pos h0, ctxGet_cons, if_neg hk, ctxGet_cons, if_neg (h0 ▸ hk)]
    · rw [if_neg h0, ctxGet_cons, ctxGet_cons]
      by_cases h1 : k0 = k'
      · rw [if_pos h1, if_pos h1]
      · rw [if_neg h1, if_neg h1]
        exact ih

/-- Spread-merge lookup: with duplicate-free keys on the right object, a key
present there wins, otherwise the left object's binding is kept. -/
theorem ctxGet_ctxMerge (a b : Ctx) (k : String) (hnd : (b.map Prod.fst).Nodup) :
    ctxGet (ctxMerge a b) k =
      if (b.map Prod.fst).contains k then ctxGet b k else ctxGet a k := by
  induction b generalizing a with
  | nil => simp [ctxMerge]
  | cons kv rest ih =>
    obtain ⟨k0, v0⟩ := kv
    simp only [List.map_cons, List.nodup_cons] at hnd
    have hstep : ctxMerge a ((k0, v0) :: rest) = ctxMerge (ctxSet a k0 v0) rest := rfl
    rw [hstep, ih _ hnd.2]
    by_cases hk : k0 = k
    · subst hk
      have hrest : (rest.map Prod.fst).contains k0 = false := by
        rw [List.contains_eq_any_beq]
        simp only [List.any_eq_false]
        intro x hx
        simp only [beq_iff_eq]
        exact fun hxk => hnd.1 (hxk ▸ hx)
      rw [hrest]
      simp only [Bool.false_eq_true, if_false]
      rw [ctxGet_ctxSet_self, ctxGet_cons, if_pos rfl]
      simp [List.contains_cons]
    · have hne : k ≠ k0 := fun hh => hk hh.symm
      rw [ctxGet_ctxSet_other _ _ _ _ hne, ctxGet_cons, if_neg hk]
      rw [List.map_cons, List.contains_cons]
      have hb : (k == k0) = false := by simpa using hne
      rw [hb, Bool.false_or]

/-- C5: when a handler calls `next(data)` during `handle`, the context the
next handler receives (`nextContext`, line 320 of `src/index.ts`) behaves as
claimed: scalar data is stored under the reserved `_lastData` key with every
other key unchanged; non-null object data is shallow-merged key by key;
omitted data leaves the context unchanged. -/
theorem natsrun_c5_next_merge (ctx : Ctx) (sv : JsVal) (hsv : isScalar sv = true)
    (fields : List (String × JsVal)) (hnd : (fields.map Prod.fst).Nodup)
    (k : String) (hk : k ≠ "_lastData") :
    (ctxGet (nextContext ctx (some sv)) "_lastData" = some sv
      ∧ ctxGet (nextContext ctx (some sv)) k = ctxGet ctx k)
    ∧ (∀ k', ctxGet (nextContext ctx (some (.obj fields))) k' =
        if (fields.map Prod.fst).contains k' then ctxGet fields k' else ctxGet ctx k')
    ∧ nextContext ctx none = ctx := by
  have hscalar : objectifyData (some sv) ctx = [("_lastData", sv)] := by
    cases sv with
    | s v => rfl
    | n v => rfl
    | b v => rfl
    | null => simp [isScalar] at hsv
    | obj f => simp [isScalar] at hsv
  constructor
  · have hmerge : nextContext ctx (some sv) = ctxSet ctx "_lastData" sv := by
      rw [nextContext, hscalar]
      rfl
    rw [hmerge]
    exact ⟨ctxGet_ctxSet_self _ _ _, ctxGet_ctxSet_other _ _ _ _ hk⟩
  · constructor
    · intro k'
      have hobj : nextContext ctx (some (.obj fields)) = ctxMerge ctx fields := rfl
      rw [hobj, ctxGet_ctxMerge _ _ _ hnd]
    · rfl

/-- Witness for C5 at concrete inputs. -/
theorem natsrun_c5_witness :
    isScalar (.n 7) = true
    ∧ ((([("x", JsVal.b false)] : List (String × JsVal)).map Prod.fst).Nodup)
    ∧ ("a" : String) ≠ "_lastData"
    ∧ (ctxGet (nextContext [("a", .b true)] (some (.n 7))) "_lastData" = some (.n 7)
        ∧ ctxGet (nextContext [("a", .b true)] (some (.n 7))) "a" =
            ctxGet [("a", .b true)] "a")
    ∧ nextContext [("a", .b true)] none = [("a", .b true)] := by
  have h := natsrun_c5_next_merge [("a", .b true)] (.n 7) rfl
    [("x", JsVal.b false)] (by simp) "a" (by decide)
  exact ⟨rfl, by simp, by decide, h.1, h.2.2⟩

/-! ## Claim C8: more literal segments never sort later -/

/-- The specificity fold equals an initial value plus the sum of token
weights. -/
theorem calcSpec_foldl_eq_sum (ts : List String) (c : Nat) :
    ts.foldl
      (fun acc topic =>
        if topic == ">" then acc + 1 else if topic == "*" then acc + 2 else acc + 3) c =
      c + (ts.map tokenWeight).sum := by
  induction ts generalizing c with
  | nil => simp
  | cons t rest ih =>
    simp only [List.foldl_cons, List.map_cons, List.sum_cons, ih, tokenWeight]
    by_cases h1 : t == ">"
    · simp [h1]
      omega
    · by_cases h2 : t == "*"
      · simp [h1, h2]
        omega
      · simp [h1, h2]
        omega

/-- `calculateSpecificity` as a sum of the spec's token weights. -/
theorem calculateSpecificity_eq_sum (p : String) :
    calculateSpecificity p = ((jsSplit p).map tokenWeight).sum := by
  rw [calculateSpecificity, calcSpec_foldl_eq_sum]
  omega

/-- Literal count over a cons cell. -/
theorem countLiterals_cons (t : String) (ts : List String) :
    countLiterals (t :: ts) =
      (if isWildcard t then 0 else 1) + countLiterals ts := by
  by_cases h : isWildcard t <;> (simp [countLiterals, List.filter_cons, h]; try omega)

/-- Domination gives a weakly larger weight sum, strictly so when the
dominating pattern has strictly more literal segments. -/
theorem patDominates_weight (as bs : List String)
    (h : patDominates as bs = true) :
    (bs.map tokenWeight).sum ≤ (as.map tokenWeight).sum
    ∧ (countLiterals bs < countLiterals as →
        (bs.map tokenWeight).sum < (as.map tokenWeight).sum) := by
  induction as generalizing bs with
  | nil =>
    cases bs with
    | nil => simp [countLiterals]
    | cons b bs' => simp [patDominates] at h
  | cons a as' ih =>
    cases bs with
    | nil => simp [patDominates] at h
    | cons b bs' =>
      have hparts : tokDominates a b = true ∧ patDominates as' bs' = true := by
        simp only [patDominates, List.length_cons, List.zip_cons_cons, List.all_cons,
          Bool.and_eq_true, beq_iff_eq, Nat.succ.injEq] at h ⊢
        exact ⟨h.2.1, by simp [h.1], h.2.2⟩
      obtain ⟨htok, hrest⟩ := hparts
      obtain ⟨hle, hlt⟩ := ih bs' hrest
      rcases Bool.or_eq_true_iff.mp htok with heq | hlw
      · have hab : a = b := by simpa using heq
        subst hab
        constructor
        · simp only [List.map_cons, List.sum_cons]
          omega
        · intro hc
          rw [countLiterals_cons, countLiterals_cons] at hc
          have := hlt (by omega)
          simp only [List.map_cons, List.sum_cons]
          omega
      · have hwa : isWildcard a = false := by
          rcases Bool.and_eq_true_iff.mp hlw with ⟨h1, _⟩
          simpa using h1
        have hwb : isWildcard b = true := (Bool.and_eq_true_iff.mp hlw).2
        have hwA : tokenWeight a = 3 := by
          unfold tokenWeight
          unfold isWildcard at hwa
          rcases Bool.or_eq_false_iff.mp hwa with ⟨h1, h2⟩
          rw [if_neg (by simpa using h2), if_neg (by simpa using h1)]
        have hwB : tokenWeight b ≤ 2 := by
          unfold tokenWeight
          unfold isWildcard at hwb
          rcases Bool.or_eq_true_iff.mp hwb with h1 | h1
          · rw [if_neg ?hne, if_pos h1]
            case hne =>
              have hb : b = "*" := by simpa using h1
              simp [hb]
          · rw [if_pos h1]
            omega
        constructor
        · simp only [List.map_cons, List.sum_cons]
          omega
        · intro _
          simp only [List.map_cons, List.sum_cons]
          omega

/-- C8: under the `'specificity'` strategy's sort stage, a matched pattern
with more literal segments and all else equal (pointwise identical except
where the richer pattern has a literal in place of a wildcard) never sorts
after the poorer pattern: no element carrying the dominated pattern `PB`
precedes an element carrying the dominating pattern `PA` in the sorted
output. -/
theorem natsrun_c8_more_literals_never_later (ps : List NatsHandlersPayload)
    (PA PB : String) (hdom : patDominates (jsSplit PA) (jsSplit PB) = true)
    (hcount : countLiterals (jsSplit PB) < countLiterals (jsSplit PA)) :
    (sortBySpecificity ps).Pairwise
      (fun x y => patternOf x = PB → patternOf y ≠ PA) := by
  have hlt : calculateSpecificity PB < calculateSpecificity PA := by
    rw [calculateSpecificity_eq_sum, calculateSpecificity_eq_sum]
    exact (patDominates_weight _ _ hdom).2 hcount
  have htrans : ∀ a b c : NatsHandlersPayload, specificityLe a b = true →
      specificityLe b c = true → specificityLe a c = true := by
    intro a b c hab hbc
    simp only [specificityLe, decide_eq_true_eq] at hab hbc ⊢
    omega
  have htotal : ∀ a b : NatsHandlersPayload,
      (specificityLe a b || specificityLe b a) = true := by
    intro a b
    simp only [specificityLe, Bool.or_eq_true, decide_eq_true_eq]
    omega
  have hsorted := List.sorted_mergeSort htrans htotal ps
  refine hsorted.imp ?_
  intro x y hxy hpB hpA
  simp only [specificityLe, decide_eq_true_eq] at hxy
  rw [hpB] at hxy
  rw [hpA] at hxy
  omega

/-- Witness for C8 at a concrete payload list: pattern `"a.b"` dominates
`"a.*"` and indeed sorts first. -/
theorem natsrun_c8_witness :
    patDominates (jsSplit "a.b") (jsSplit "a.*") = true
    ∧ countLiterals (jsSplit "a.*") < countLiterals (jsSplit "a.b")
    ∧ (sortBySpecificity
        [⟨[1], [("_pattern", .s "a.*")]⟩, ⟨[2], [("_pattern", .s "a.b")]⟩]).Pairwise
        (fun x y => patternOf x = "a.*" → patternOf y ≠ "a.b") :=
  ⟨by decide, by decide,
    natsrun_c8_more_literals_never_later
      [⟨[1], [("_pattern", .s "a.*")]⟩, ⟨[2], [("_pattern", .s "a.b")]⟩]
      "a.b" "a.*" (by decide) (by decide)⟩

/-! ## Claim C9: per-handler stamping — amended behaviour -/

/-- Metadata read on a cons cell. -/
theorem metaGet_cons (k0 : String) (v0 : MetaValue) (rest : Metadata) (k : String) :
    metaGet ((k0, v0) :: rest) k = if k0 = k then some v0 else metaGet rest k := by
  by_cases h : k0 = k
  · simp [metaGet, List.find?_cons, h]
  · simp only [metaGet, List.find?_cons]
    have hb : ((k0, v0).1 == k) = false := by simpa using h
    rw [hb, if_neg h]

/-- Metadata read after a write at the same key. -/
theorem metaGet_metaSet_self (m : Metadata) (k : String) (v : MetaValue) :
    metaGet (metaSet m k v) k = some v := by
  induction m with
  | nil =>
    show metaGet [(k, v)] k = some v
    rw [metaGet_cons, if_pos rfl]
  | cons kv rest ih =>
    obtain ⟨k0, v0⟩ := kv
    show metaGet (if k0 = k then (k, v) :: rest else (k0, v0) :: metaSet rest k v) k = some v
    by_cases h : k0 = k
    · rw [if_pos h, metaGet_cons, if_pos rfl]
    · rw [if_neg h, metaGet_cons, if_neg h]
      exact ih

/-- Metadata read after a write at a different key. -/
theorem metaGet_metaSet_other (m : Metadata) (k k' : String) (v : MetaValue)
    (h : k' ≠ k) : metaGet (metaSet m k v) k' = metaGet m k' := by
  have hk : k ≠ k' := fun hh => h hh.symm
  induction m with
  | nil =>
    show metaGet [(k, v)] k' = metaGet [] k'
    rw [metaGet_cons, if_neg hk]
  | cons kv rest ih =>
    obtain ⟨k0, v0⟩ := kv
    show metaGet (if k0 = k then (k, v) :: rest else (k0, v0) :: metaSet rest k v) k' =
      metaGet ((k0, v0) :: rest) k'
    by_cases h0 : k0 = k
    · rw [if_pos h0, metaGet_cons, if_neg hk, metaGet_cons, if_neg (h0 ▸ hk)]
    · rw [if_neg h0, metaGet_cons, metaGet_cons]
      by_cases h1 : k0 = k'
      · rw [if_pos h1, if_pos h1]
      · rw [if_neg h1, if_neg h1]
        exact ih

/-- A stamped group keeps its handler functions. -/
theorem stampGroup_handlers (p : NatsHandlersPayload) (metadata : Metadata)
    (pattern : String) (c : Nat) :
    (stampGroup p metadata pattern c).handlers = p.handlers := rfl

/-- A stamped group records the counter value under `_insertOrder` (the
internal stamp is assigned last, overriding caller metadata). -/
theorem stampGroup_insertOrder (p : NatsHandlersPayload) (metadata : Metadata)
    (pattern : String) (c : Nat) :
    metaGet (stampGroup p metadata pattern c).metadata "_insertOrder" = some (.n c) := by
  show metaGet
    (metaSet (metaSet (metaAssign p.metadata metadata) "_insertOrder" (.n c))
      "_pattern" (.s pattern)) "_insertOrder" = some (.n c)
  rw [metaGet_metaSet_other _ _ _ _ (by decide), metaGet_metaSet_self]

/-- A stamped group records the pattern string under `_pattern`. -/
theorem stampGroup_pattern (p : NatsHandlersPayload) (metadata : Metadata)
    (pattern : String) (c : Nat) :
    metaGet (stampGroup p metadata pattern c).metadata "_pattern" = some (.s pattern) := by
  show metaGet
    (metaSet (metaSet (metaAssign p.metadata metadata) "_insertOrder" (.n c))
      "_pattern" (.s pattern)) "_pattern" = some (.s pattern)
  rw [metaGet_metaSet_self]

/-- The `add` loop over a list of handler functions: one singleton group per
function, consecutive `_insertOrder` stamps starting at the current counter,
and the counter advanced once per function. -/
theorem buildGroups_fnc_spec (pattern : String) (metadata : Metadata)
    (hs : List Nat) (c : Nat) :
    ∃ gs, buildGroups pattern metadata (hs.map AddItem.fnc) c = (.ok gs, c + hs.length)
      ∧ gs.map (fun g => g.handlers) = hs.map (fun h => [h])
      ∧ gs.map (fun g => metaGet g.metadata "_insertOrder") =
          (List.range' c hs.length).map (fun i => some (.n i)) := by
  induction hs generalizing c with
  | nil => exact ⟨[], by simp [buildGroups], by simp, by simp⟩
  | cons h rest ih =>
    obtain ⟨gs, hbg, hh, ho⟩ := ih (c + 1)
    refine ⟨stampGroup (wrapHandler h) metadata pattern c :: gs, ?_, ?_, ?_⟩
    · simp only [List.map_cons, buildGroups, hbg, List.length_cons]
      have : c + 1 + rest.length = c + (rest.length + 1) := by omega
      rw [this]
    · simp only [List.map_cons, hh, stampGroup_handlers]
      rfl
    · rw [List.length_cons, List.range'_succ]
      simp only [List.map_cons, ho, stampGroup_insertOrder]

/-- C9 amended: an `add` call with a list of `n` handler functions wraps each
function in its own singleton handler group, stamps the groups with the
consecutive sequence numbers `count, count+1, …, count+n-1` (one `count++`
per element, not one per call), and advances the router's counter by `n`. -/
theorem natsrun_c9_amended (pattern : String) (metadata : Metadata) (hs : List Nat)
    (st : RouterState) :
    (∃ gs, (buildGroups pattern metadata (hs.map AddItem.fnc) st.count).1 = .ok gs
      ∧ gs.map (fun g => g.handlers) = hs.map (fun h => [h])
      ∧ gs.map (fun g => metaGet g.metadata "_insertOrder") =
          (List.range' st.count hs.length).map (fun i => some (.n i)))
    ∧ (buildGroups pattern metadata (hs.map AddItem.fnc) st.count).2 =
        st.count + hs.length
    ∧ (natsRunAdd st pattern (.many (hs.map AddItem.fnc)) metadata).1.count =
        st.count + hs.length := by
  obtain ⟨gs, hbg, hh, ho⟩ := buildGroups_fnc_spec pattern metadata hs st.count
  refine ⟨⟨gs, by rw [hbg], hh, ho⟩, by rw [hbg], ?_⟩
  simp only [natsRunAdd, hbg]
  cases hins : natsTrieInsert st.trie (fun _ => false) pattern gs with
  | mk trie' err =>
    cases err with
    | none => rfl
    | some te => rfl

/-! ## Claim C7: wildcard ids — amended behaviour -/

/-- Interning a string that is already pooled returns its id and leaves the
pool untouched. -/
theorem intern_of_lookup (sp : SPool) (s : String) (i : Nat)
    (h : sp.lookupStr s = some i) : sp.intern s = (i, sp) := by
  unfold SPool.intern
  rw [h]

/-- Interning preserves every established binding. -/
theorem lookup_mono (sp : SPool) (s x : String) (i : Nat)
    (h : sp.lookupStr x = some i) : ((sp.intern s).2).lookupStr x = some i := by
  unfold SPool.intern
  cases hl : sp.lookupStr s with
  | some j => exact h
  | none =>
    show (((sp.pool ++ [(s, sp.nextId)]).find? (fun e => e.1 == x)).map
      (fun e => e.2)) = some i
    rw [List.find?_append]
    unfold SPool.lookupStr at h
    rcases Option.map_eq_some'.mp h with ⟨e, he, hei⟩
    rw [he]
    simpa using hei

/-- The trie-pool invariant survives interning any string. -/
theorem PoolInv_intern (sp : SPool) (s : String) (h : PoolInv sp) :
    PoolInv (sp.intern s).2 := by
  obtain ⟨hstar, hgt, hnext, hlit⟩ := h
  unfold SPool.intern
  cases hl : sp.lookupStr s with
  | some j => exact ⟨hstar, hgt, hnext, hlit⟩
  | none =>
    refine ⟨?_, ?_, by simpa using Nat.le_succ_of_le hnext, ?_⟩
    · have := lookup_mono sp s "*" 1 hstar
      unfold SPool.intern at this
      rw [hl] at this
      exact this
    · have := lookup_mono sp s ">" 2 hgt
      unfold SPool.intern at this
      rw [hl] at this
      exact this
    · intro e he hne1 hne2
      rcases List.mem_append.mp he with hmem | hmem
      · exact hlit e hmem hne1 hne2
      · have : e = (s, sp.nextId) := by simpa using hmem
        rw [this]
        exact hnext

/-- The trie's constructor pool satisfies the invariant. -/
theorem PoolInv_init : PoolInv natsTriePool := by
  refine ⟨rfl, rfl, by decide, ?_⟩
  decide

/-- The invariant survives interning any list of strings. -/
theorem PoolInv_internList (ls : List String) (sp : SPool) (h : PoolInv sp) :
    PoolInv (internList sp ls).2 := by
  induction ls generalizing sp with
  | nil => exact h
  | cons t rest ih => exact ih _ (PoolInv_intern _ _ h)

/-- Under the invariant, a non-wildcard string never receives a wildcard id. -/
theorem PoolInv_literal_id (sp : SPool) (s : String) (h : PoolInv sp)
    (h1 : s ≠ "*") (h2 : s ≠ ">") : 3 ≤ (sp.intern s).1 := by
  obtain ⟨_, _, hnext, hlit⟩ := h
  unfold SPool.intern
  cases hl : sp.lookupStr s with
  | some i =>
    unfold SPool.lookupStr at hl
    rcases Option.map_eq_some'.mp hl with ⟨e, he, hei⟩
    have hmem := List.mem_of_find?_eq_some he
    have hes : e.1 = s := by simpa using List.find?_some he
    have := hlit e hmem (hes ▸ h1) (hes ▸ h2)
    simpa [hei] using this
  | none => exact hnext

/-- C7 amended: in the trie's pool (constructed by interning `"*"` then
`">"` from the shared counter, which therefore starts literals at 3), after
any sequence of interning operations `"*"` maps to the fixed id 1 and `">"`
to the fixed id 2, re-interning a wildcard is a no-op on the pool state (in
particular the counter does not advance), and no literal string ever
receives an id below 3. -/
theorem natsrun_c7_amended (ls : List String) (s : String)
    (h1 : s ≠ "*") (h2 : s ≠ ">") :
    ((internList natsTriePool ls).2.intern "*") = (1, (internList natsTriePool ls).2)
    ∧ ((internList natsTriePool ls).2.intern ">") = (2, (internList natsTriePool ls).2)
    ∧ 3 ≤ ((internList natsTriePool ls).2.intern s).1 := by
  have hinv := PoolInv_internList ls natsTriePool PoolInv_init
  exact ⟨intern_of_lookup _ _ _ hinv.1, intern_of_lookup _ _ _ hinv.2.1,
    PoolInv_literal_id _ _ hinv h1 h2⟩

/-- Witness for the amended C7 at concrete strings. -/
theorem natsrun_c7_amended_witness :
    ("bar" : String) ≠ "*" ∧ ("bar" : String) ≠ ">"
    ∧ ((internList natsTriePool ["foo"]).2.intern "*") =
        (1, (internList natsTriePool ["foo"]).2)
    ∧ 3 ≤ ((internList natsTriePool ["foo"]).2.intern "bar").1 := by
  have h := natsrun_c7_amended ["foo"] "bar" (by decide) (by decide)
  exact ⟨by decide, by decide, h.1, h.2.2⟩

/-! ## Claim C4: repeated registration accumulates — machinery -/

/-- After interning, the string is bound to the returned id. -/
theorem lookup_intern_self (sp : SPool) (s : String) :
    ((sp.intern s).2).lookupStr s = some (sp.intern s).1 := by
  unfold SPool.intern
  cases hl : sp.lookupStr s with
  | some i => exact hl
  | none =>
    show (((sp.pool ++ [(s, sp.nextId)]).find? (fun e => e.1 == s)).map
      (fun e => e.2)) = some sp.nextId
    rw [List.find?_append]
    unfold SPool.lookupStr at hl
    have hnone : sp.pool.find? (fun e => e.1 == s) = none := by
      cases hf : sp.pool.find? (fun e => e.1 == s) with
      | none => rfl
      | some e => rw [hf] at hl; simp at hl
    rw [hnone]
    simp

/-- Bindings survive interning a whole list. -/
theorem internList_mono (ts : List String) (sp : SPool) (x : String) (i : Nat)
    (h : sp.lookupStr x = some i) : ((internList sp ts).2).lookupStr x = some i := by
  induction ts generalizing sp with
  | nil => exact h
  | cons t rest ih => exact ih _ (lookup_mono _ _ _ _ h)

/-- After interning a list, every element is bound to its returned id. -/
theorem internList_lookup (ts : List String) (sp : SPool) :
    List.Forall₂ (fun t j => ((internList sp ts).2).lookupStr t = some j)
      ts (internList sp ts).1 := by
  induction ts generalizing sp with
  | nil => exact List.Forall₂.nil
  | cons t rest ih =>
    refine List.Forall₂.cons ?_ (ih (sp.intern t).2)
    exact internList_mono rest _ _ _ (lookup_intern_self sp t)

/-- Pattern-token ids under the pool invariant: interning a pattern's tokens
yields wildcard ids for wildcards and ids of at least 3 for literals, all
still bound in the final pool. -/
theorem internList_patIds (ts : List String) (sp : SPool) (h : PoolInv sp) :
    PatIds (internList sp ts).2 ts (internList sp ts).1 := by
  induction ts generalizing sp with
  | nil => exact List.Forall₂.nil
  | cons t rest ih =>
    refine List.Forall₂.cons ?_ (ih (sp.intern t).2 (PoolInv_intern sp t h))
    by_cases hgt : t = ">"
    · left
      subst hgt
      rw [intern_of_lookup _ _ _ h.2.1]
      exact ⟨rfl, rfl⟩
    · by_cases hstar : t = "*"
      · right; left
        subst hstar
        rw [intern_of_lookup _ _ _ h.1]
        exact ⟨rfl, rfl⟩
      · right; right
        refine ⟨hgt, hstar, ?_, ?_⟩
        · exact internList_mono rest _ _ _ (lookup_intern_self sp t)
        · exact PoolInv_literal_id sp t h hstar hgt
/-- `PatIds` survives interning. -/
theorem patIds_mono (pool : SPool) (s : String) (ts : List String) (ids : List Nat)
    (h : PatIds pool ts ids) : PatIds (pool.intern s).2 ts ids := by
  refine h.imp ?_
  intro t j hj
  rcases hj with h1 | h2 | ⟨hn1, hn2, hl, hge⟩
  · exact Or.inl h1
  · exact Or.inr (Or.inl h2)
  · exact Or.inr (Or.inr ⟨hn1, hn2, lookup_mono _ _ _ _ hl, hge⟩)


/-- One-step unfolding of `insertGo` on a nonempty topic list. -/
theorem insertGo_cons {α} (topic : String) (rest : List String) (pl : List α)
    (n : TrieNode α) (pool : SPool) :
    insertGo (topic :: rest) n pl pool =
      (match branchGet n.bi (pool.intern topic).1 with
       | some child =>
         (.mk n.t n.bk
            (branchSet n.bi (pool.intern topic).1
              (insertGo rest child pl (pool.intern topic).2).1) n.p n.l,
          (insertGo rest child pl (pool.intern topic).2).2)
       | none =>
         (.mk n.t
            (if defaultArrayToMapThreshold ≤ n.bi.length then BranchKind.map else n.bk)
            (branchSet n.bi (pool.intern topic).1
              (insertGo rest (createTrie (α := α) rest.isEmpty topic (pool.intern topic).2).1 pl
                (createTrie (α := α) rest.isEmpty topic (pool.intern topic).2).2).1) n.p n.l,
          (insertGo rest (createTrie (α := α) rest.isEmpty topic (pool.intern topic).2).1 pl
            (createTrie (α := α) rest.isEmpty topic (pool.intern topic).2).2).2)) := rfl

/-- Inserting a pattern into a childless node builds the linear chain of its
interned token ids, ending in a leaf that carries the payload. -/
theorem insertGo_fresh {α} (rest : List String) (t : String) (pl : List α)
    (nt : Option Nat) (nbk : BranchKind) (np : List α) (nl : Bool) (pool : SPool)
    (hne : (t :: rest).all (fun x => !(x == "")) = true) :
    insertGo (t :: rest) (.mk nt nbk [] np nl) pl pool =
      (.mk nt nbk
        [((pool.intern t).1,
          chainAux (pool.intern t).1 (internList (pool.intern t).2 rest).1 pl)]
        np nl,
       (internList (pool.intern t).2 rest).2) := by
  induction rest generalizing t pool nt nbk np nl with
  | nil =>
    simp only [List.all_cons, List.all_nil, Bool.and_eq_true] at hne
    have ht : t ≠ "" := by simpa using hne.1
    rw [insertGo_cons]
    simp only [TrieNode.bi, TrieNode.t, TrieNode.bk, TrieNode.p, TrieNode.l, branchGet,
      List.length_nil, List.isEmpty_nil, branchSet]
    rw [if_neg (by simp [defaultArrayToMapThreshold])]
    simp only [createTrie, if_neg ht,
      intern_of_lookup _ _ _ (lookup_intern_self pool t)]
    simp only [insertGo, TrieNode.t, TrieNode.bk, TrieNode.bi, TrieNode.p, TrieNode.l,
      internList, chainAux, List.nil_append]
  | cons r rs ih =>
    simp only [List.all_cons, Bool.and_eq_true] at hne
    have ht : t ≠ "" := by simpa using hne.1
    have hchild := ih r (some (pool.intern t).1) BranchKind.array [] false
      ((pool.intern t).2)
      (by simp only [List.all_cons, Bool.and_eq_true]; exact ⟨hne.2.1, hne.2.2⟩)
    rw [insertGo_cons]
    simp only [TrieNode.bi, TrieNode.t, TrieNode.bk, TrieNode.p, TrieNode.l, branchGet,
      List.length_nil, List.isEmpty_cons, branchSet]
    rw [if_neg (by simp [defaultArrayToMapThreshold])]
    simp only [createTrie, if_neg ht,
      intern_of_lookup _ _ _ (lookup_intern_self pool t)]
    rw [hchild]
    simp only [TrieNode.t, TrieNode.bk, TrieNode.p, TrieNode.l, TrieNode.bi,
      internList, chainAux]

/-- Branch read on a cons cell. -/
theorem branchGet_cons {α} (k0 : Nat) (v0 : TrieNode α) (rest : List (Nat × TrieNode α))
    (k : Nat) :
    branchGet ((k0, v0) :: rest) k = if k0 = k then some v0 else branchGet rest k := rfl

/-- Branch write on a cons cell. -/
theorem branchSet_cons {α} (k0 : Nat) (v0 : TrieNode α) (rest : List (Nat × TrieNode α))
    (k : Nat) (v : TrieNode α) :
    branchSet ((k0, v0) :: rest) k v =
      if k0 = k then (k, v) :: rest else (k0, v0) :: branchSet rest k v := rfl

/-- Re-inserting along an existing chain appends the payload at the terminal
node and leaves the pool untouched. -/
theorem insertGo_chain {α} (rest : List String) (ids : List Nat) (pool : SPool)
    (hids : List.Forall₂ (fun x j => pool.lookupStr x = some j) rest ids) :
    ∀ (t : String) (i : Nat) (pl1 pl2 : List α) (n : TrieNode α),
    pool.intern t = (i, pool) →
    branchGet n.bi i = some (chainAux i ids pl1) →
    insertGo (t :: rest) n pl2 pool =
      (.mk n.t n.bk (branchSet n.bi i (chainAux i ids (pl1 ++ pl2))) n.p n.l, pool) := by
  induction hids with
  | nil =>
    intro t i pl1 pl2 n hint hget
    rw [insertGo_cons, hint]
    simp only [hget]
    simp only [insertGo, chainAux, TrieNode.t, TrieNode.bk, TrieNode.bi, TrieNode.p,
      TrieNode.l]
  | cons hr hrs ih =>
    rename_i r j rs js
    intro t i pl1 pl2 n hint hget
    rw [insertGo_cons, hint]
    simp only [hget]
    have hstep := ih r j pl1 pl2 (chainAux i (j :: js) pl1)
      (intern_of_lookup _ _ _ hr)
      (by simp [chainAux, TrieNode.bi, branchGet_cons])
    rw [hstep]
    have hinner : TrieNode.mk (chainAux i (j :: js) pl1 : TrieNode α).t
        (chainAux i (j :: js) pl1).bk
        (branchSet (chainAux i (j :: js) pl1).bi j (chainAux j js (pl1 ++ pl2)))
        (chainAux i (j :: js) pl1).p (chainAux i (j :: js) pl1).l =
        chainAux i (j :: js) (pl1 ++ pl2) := by
      simp [chainAux, TrieNode.t, TrieNode.bk, TrieNode.bi, TrieNode.p, TrieNode.l,
        branchSet_cons]
    rw [hinner]
theorem matchGo_nil {α} (gtId starId : Nat) (n : TrieNode α) (pool : SPool) :
    matchGo gtId starId [] n pool =
      (if n.l || n.t == some gtId then [n] else [], pool) := rfl

theorem matchGo_cons_array {α} (gtId starId : Nat) (topic : String)
    (rest : List String) (n : TrieNode α) (pool : SPool) (hbk : n.bk = .array) :
    matchGo gtId starId (topic :: rest) n pool =
      matchScan (matchGo gtId starId rest) gtId starId (pool.intern topic).1 n.bi
        (pool.intern topic).2 := by
  cases n with
  | mk nt nbk nbi np nl =>
    simp only [TrieNode.bk] at hbk
    subst hbk
    rfl

theorem matchScan_nil {α} (recur : TrieNode α → SPool → List (TrieNode α) × SPool)
    (gtId starId topicId : Nat) (pool : SPool) :
    matchScan recur gtId starId topicId [] pool = ([], pool) := rfl

theorem matchScan_cons {α} (recur : TrieNode α → SPool → List (TrieNode α) × SPool)
    (gtId starId topicId : Nat) (t : Nat) (child : TrieNode α)
    (es : List (Nat × TrieNode α)) (pool : SPool) :
    matchScan recur gtId starId topicId ((t, child) :: es) pool =
      (if t ≠ 0 then
        if t = gtId then
          (child :: (matchScan recur gtId starId topicId es pool).1,
           (matchScan recur gtId starId topicId es pool).2)
        else if t = starId ∨ t = topicId then
          ((recur child pool).1 ++
             (matchScan recur gtId starId topicId es (recur child pool).2).1,
           (matchScan recur gtId starId topicId es (recur child pool).2).2)
        else matchScan recur gtId starId topicId es pool
      else matchScan recur gtId starId topicId es pool) := rfl

theorem matchGo_chain {α} (ps : List String) :
    ∀ (p : String) (stoks : List String) (i : Nat) (ids : List Nat) (pl : List α)
      (n : TrieNode α) (pool : SPool),
    specSatisfies (p :: ps) stoks = true →
    PatIds pool (p :: ps) (i :: ids) →
    n.bk = .array →
    n.bi = [(i, chainAux i ids pl)] →
    ∃ T ∈ (matchGo 2 1 stoks n pool).1, T.p = pl ∧ T.l = true := by
  induction ps with
  | nil =>
    intro p stoks i ids pl n pool hsat hids hbk hbi
    unfold PatIds at hids
    cases hids with
    | cons hh htl =>
    cases htl with
    | nil =>
    cases stoks with
    | nil => simp [specSatisfies] at hsat
    | cons s ss =>
      by_cases hp : p = ">"
      · subst hp
        have hi : i = 2 := by
          rcases hh with ⟨_, hi⟩ | ⟨hp', _⟩ | ⟨hp', _, _⟩
          · exact hi
          · simp at hp'
          · simp at hp'
        subst hi
        rw [matchGo_cons_array _ _ _ _ _ _ hbk, hbi, matchScan_cons]
        simp only [if_pos (by decide : (2:Nat) ≠ 0), if_pos rfl, matchScan_nil]
        exact ⟨chainAux 2 [] pl, by simp, by simp [chainAux, TrieNode.p],
          by simp [chainAux, TrieNode.l]⟩
      · have hss : ss = [] := by
          rw [show specSatisfies [p] (s :: ss) =
            ((p == "*" || p == s) && specSatisfies [] ss) from by
              simp [specSatisfies, hp]] at hsat
          rcases Bool.and_eq_true_iff.mp hsat with ⟨_, h2⟩
          cases ss with
          | nil => rfl
          | cons x xs => simp [specSatisfies] at h2
        subst hss
        have hps : (p == "*" || p == s) = true := by
          rw [show specSatisfies [p] [s] =
            ((p == "*" || p == s) && specSatisfies [] []) from by
              simp [specSatisfies, hp]] at hsat
          exact (Bool.and_eq_true_iff.mp hsat).1
        rw [matchGo_cons_array _ _ _ _ _ _ hbk, hbi, matchScan_cons]
        by_cases hstar : p = "*"
        · subst hstar
          have hi : i = 1 := by
            rcases hh with ⟨hp', _⟩ | ⟨_, hi⟩ | ⟨_, hp', _⟩
            · simp at hp'
            · exact hi
            · simp at hp'
          subst hi
          simp only [if_pos (by decide : (1:Nat) ≠ 0), if_neg (by decide : ¬(1:Nat) = 2),
            if_pos (Or.inl rfl), matchScan_nil, matchGo_nil]
          simp only [chainAux, TrieNode.l, Bool.true_or, if_pos]
          refine ⟨TrieNode.mk (some 1) .array [] pl true, ?_, rfl, rfl⟩
          simp [TrieNode.l]
        · have hi : pool.lookupStr p = some i ∧ 3 ≤ i := by
            rcases hh with ⟨hp', _⟩ | ⟨hp', _⟩ | ⟨_, _, hl, hge⟩
            · exact absurd hp' hp
            · exact absurd hp' hstar
            · exact ⟨hl, hge⟩
          have hs : s = p := by
            rcases Bool.or_eq_true_iff.mp hps with h1 | h1
            · exact absurd (by simpa using h1) hstar
            · exact (by simpa using h1 : p = s).symm
          subst hs
          rw [intern_of_lookup _ _ _ hi.1]
          simp only [if_pos (by omega : i ≠ 0), if_neg (by omega : ¬ i = 2),
            if_pos (Or.inr rfl), matchScan_nil, matchGo_nil]
          simp only [chainAux, TrieNode.l, Bool.true_or, if_pos]
          refine ⟨TrieNode.mk (some i) .array [] pl true, ?_, rfl, rfl⟩
          simp [TrieNode.l]
  | cons q qs ih =>
    intro p stoks i ids pl n pool hsat hids hbk hbi
    unfold PatIds at hids
    cases hids with
    | cons hh htl =>
    cases htl with
    | cons hq hqs =>
    rename_i j js
    cases stoks with
    | nil => simp [specSatisfies] at hsat
    | cons s ss =>
      by_cases hp : p = ">"
      · subst hp
        rw [show specSatisfies (">" :: q :: qs) (s :: ss) = false from by
          simp [specSatisfies]] at hsat
        exact absurd hsat (by simp)
      · have hsat' : ((p == "*" || p == s) && specSatisfies (q :: qs) ss) = true := by
          rw [show specSatisfies (p :: q :: qs) (s :: ss) =
            ((p == "*" || p == s) && specSatisfies (q :: qs) ss) from by
              simp [specSatisfies, hp]] at hsat
          exact hsat
        obtain ⟨hps, hsat2⟩ := Bool.and_eq_true_iff.mp hsat'
        rw [matchGo_cons_array _ _ _ _ _ _ hbk, hbi, matchScan_cons]
        have hchild := ih q ss j js pl (chainAux i (j :: js) pl)
          ((pool.intern s).2) hsat2
          (by
            unfold PatIds
            exact List.Forall₂.cons
              (by
                rcases hq with h1 | h2 | ⟨hn1, hn2, hl, hge⟩
                · exact Or.inl h1
                · exact Or.inr (Or.inl h2)
                · exact Or.inr (Or.inr ⟨hn1, hn2, lookup_mono _ _ _ _ hl, hge⟩))
              (by
                refine hqs.imp ?_
                intro t k hk
                rcases hk with h1 | h2 | ⟨hn1, hn2, hl, hge⟩
                · exact Or.inl h1
                · exact Or.inr (Or.inl h2)
                · exact Or.inr (Or.inr ⟨hn1, hn2, lookup_mono _ _ _ _ hl, hge⟩)))
          (by simp [chainAux, TrieNode.bk])
          (by simp [chainAux, TrieNode.bi])
        obtain ⟨T, hT, hTp, hTl⟩ := hchild
        by_cases hstar : p = "*"
        · subst hstar
          have hi : i = 1 := by
            rcases hh with ⟨hp', _⟩ | ⟨_, hi⟩ | ⟨_, hp', _⟩
            · simp at hp'
            · exact hi
            · simp at hp'
          subst hi
          simp only [if_pos (by decide : (1:Nat) ≠ 0), if_neg (by decide : ¬(1:Nat) = 2),
            if_pos (Or.inl rfl), matchScan_nil, List.append_nil]
          exact ⟨T, hT, hTp, hTl⟩
        · have hi : pool.lookupStr p = some i ∧ 3 ≤ i := by
            rcases hh with ⟨hp', _⟩ | ⟨hp', _⟩ | ⟨_, _, hl, hge⟩
            · exact absurd hp' hp
            · exact absurd hp' hstar
            · exact ⟨hl, hge⟩
          have hs : s = p := by
            rcases Bool.or_eq_true_iff.mp hps with h1 | h1
            · exact absurd (by simpa using h1) hstar
            · exact (by simpa using h1 : p = s).symm
          subst hs
          simp only [intern_of_lookup _ _ _ hi.1] at hT ⊢
          simp only [if_pos (by omega : i ≠ 0), if_neg (by omega : ¬ i = 2),
            eq_self_iff_true, or_true, if_true, matchScan_nil, List.append_nil]
          exact ⟨T, hT, hTp, hTl⟩

/-- An index returned by `firstIdx` is in range and points at the sought
string. -/
theorem firstIdx_spec (l : List String) (x : String) (i : Nat)
    (h : firstIdx l x = some i) : ∃ hlt : i < l.length, l.get ⟨i, hlt⟩ = x := by
  induction l generalizing i with
  | nil => simp [firstIdx] at h
  | cons a rest ih =>
    by_cases hax : a = x
    · rw [firstIdx, if_pos hax] at h
      have hi : i = 0 := by
        cases h; rfl
      subst hi
      exact ⟨by simp, hax⟩
    · rw [firstIdx, if_neg hax] at h
      obtain ⟨j, hj, hji⟩ := Option.map_eq_some'.mp h
      obtain ⟨hlt, hget⟩ := ih j hj
      subst hji
      refine ⟨by simp only [List.length_cons]; omega, ?_⟩
      exact hget

/-- On a pattern the spec classifies as valid, `insert` passes every
validation and runs the walking insert. -/
theorem natsTrieInsert_valid {α} (st : TrieState α) (P : String) (pl : List α)
    (hP : specInvalidPattern P = false) :
    natsTrieInsert st (fun _ => false) P pl =
      ({ trieRoot := (insertGo (jsSplit P) st.trieRoot pl st.stringPool).1,
         stringPool := (insertGo (jsSplit P) st.trieRoot pl st.stringPool).2 }, none) := by
  unfold specInvalidPattern at hP
  simp only [Bool.or_eq_false_iff] at hP
  obtain ⟨⟨hP1, hP2⟩, hP3⟩ := hP
  have hPne : P ≠ "" := by simpa using hP1
  simp only [natsTrieInsert]
  rw [if_neg hPne]
  rw [if_neg (by simp : ¬ (pl.any (fun _ => false) = true))]
  rw [if_neg (by
    intro h0
    exact jsSplit_ne_nil P (List.eq_nil_of_length_eq_zero h0))]
  rw [if_neg (by simp [hP2] : ¬ ((jsSplit P).any (fun topic => topic == "") = true))]
  cases hfi : firstIdx (jsSplit P) ">" with
  | none => rfl
  | some i =>
    obtain ⟨hlt, hget⟩ := firstIdx_spec _ _ _ hfi
    have hi : i = (jsSplit P).length - 1 := by
      by_contra hne
      have hlt' : i < (jsSplit P).length - 1 := by omega
      have hlen' : i < (jsSplit P).dropLast.length := by
        simpa [List.length_dropLast] using hlt'
      have hddg : (jsSplit P)[i] = ">" := by
        have h' := hget
        rw [List.get_eq_getElem] at h'
        exact h'
      have hmem : (jsSplit P).dropLast.any (fun t => t == ">") = true :=
        List.any_eq_true.mpr ⟨(jsSplit P).dropLast.get ⟨i, hlen'⟩,
          List.get_mem _ _ hlen',
          by simp [List.get_eq_getElem, List.getElem_dropLast, hddg]⟩
      rw [hmem] at hP3
      exact absurd hP3 (by decide)
    subst hi
    simp

/-- Claim C4 (duplicate registration accumulates): starting from a fresh
trie, inserting `pl1` and then `pl2` under the same valid pattern `P` both
succeed, and matching any subject `S` that satisfies `P` finds a terminal
node holding `pl1 ++ pl2` — the first registration's payload followed by the
second's. -/
theorem natsrun_c4 {α} (P S : String) (pl1 pl2 : List α)
    (hP : specInvalidPattern P = false)
    (hS : specSatisfies (jsSplit P) (jsSplit S) = true) :
    (natsTrieInsert (natsTrieNew (α := α)) (fun _ => false) P pl1).2 = none ∧
    (natsTrieInsert (natsTrieInsert (natsTrieNew (α := α)) (fun _ => false) P pl1).1
        (fun _ => false) P pl2).2 = none ∧
    ∃ T ∈ (natsTrieMatch
        (natsTrieInsert (natsTrieInsert (natsTrieNew (α := α)) (fun _ => false) P pl1).1
          (fun _ => false) P pl2).1 S).1,
      T.p = pl1 ++ pl2 ∧ T.l = true := by
  obtain ⟨t, rest, htr⟩ : ∃ t rest, jsSplit P = t :: rest := by
    cases h : jsSplit P with
    | nil => exact absurd h (jsSplit_ne_nil P)
    | cons a l => exact ⟨a, l, rfl⟩
  have hP' := hP
  unfold specInvalidPattern at hP'
  simp only [Bool.or_eq_false_iff] at hP'
  obtain ⟨⟨hP1, hP2⟩, hP3⟩ := hP'
  have hne : (t :: rest).all (fun x => !(x == "")) = true := by
    rw [← htr, List.all_eq_true]
    intro x hx
    rw [List.any_eq_false] at hP2
    simpa using hP2 x hx
  set pool0 : SPool := SPool.init ["*", ">"] with hpool0
  set i0 : Nat := (pool0.intern t).1 with hi0
  set ids : List Nat := (internList (pool0.intern t).2 rest).1 with hids0
  set pool1 : SPool := (internList (pool0.intern t).2 rest).2 with hpool1
  have hinv0 : PoolInv pool0 := PoolInv_init
  have hinv1 : PoolInv pool1 := PoolInv_internList _ _ (PoolInv_intern _ _ hinv0)
  have hfresh := insertGo_fresh (α := α) rest t pl1 none .array [] false pool0 hne
  have hins1 : natsTrieInsert (natsTrieNew (α := α)) (fun _ => false) P pl1 =
      ({ trieRoot := .mk none .array [(i0, chainAux i0 ids pl1)] [] false,
         stringPool := pool1 }, none) := by
    rw [natsTrieInsert_valid _ _ _ hP, htr]
    have hroot : (natsTrieNew (α := α)).trieRoot =
        TrieNode.mk none .array [] [] false := rfl
    have hsp : (natsTrieNew (α := α)).stringPool = pool0 := rfl
    rw [hroot, hsp, hfresh]
  have hst1 : (natsTrieInsert (natsTrieNew (α := α)) (fun _ => false) P pl1).1 =
      ({ trieRoot := .mk none .array [(i0, chainAux i0 ids pl1)] [] false,
         stringPool := pool1 } : TrieState α) := by rw [hins1]
  have hlook_t : pool1.lookupStr t = some i0 :=
    internList_mono rest _ t i0 (lookup_intern_self pool0 t)
  have hids2 : List.Forall₂ (fun x j => pool1.lookupStr x = some j) rest ids :=
    internList_lookup rest (pool0.intern t).2
  have hchain := insertGo_chain rest ids pool1 hids2 t i0 pl1 pl2
    (.mk none .array [(i0, chainAux i0 ids pl1)] [] false)
    (intern_of_lookup _ _ _ hlook_t)
    (by simp [TrieNode.bi, branchGet])
  have hchain' : insertGo (t :: rest)
      (.mk none .array [(i0, chainAux i0 ids pl1)] [] false : TrieNode α) pl2 pool1 =
      (.mk none .array [(i0, chainAux i0 ids (pl1 ++ pl2))] [] false, pool1) := by
    rw [hchain]
    simp [TrieNode.t, TrieNode.bk, TrieNode.bi, TrieNode.p, TrieNode.l, branchSet]
  have hins2 : natsTrieInsert
      ({ trieRoot := .mk none .array [(i0, chainAux i0 ids pl1)] [] false,
         stringPool := pool1 } : TrieState α) (fun _ => false) P pl2 =
      ({ trieRoot := .mk none .array [(i0, chainAux i0 ids (pl1 ++ pl2))] [] false,
         stringPool := pool1 }, none) := by
    simp only [natsTrieInsert_valid _ _ _ hP, htr, hchain']
  have hmatch : (natsTrieMatch
      ({ trieRoot := .mk none .array [(i0, chainAux i0 ids (pl1 ++ pl2))] [] false,
         stringPool := pool1 } : TrieState α) S).1 =
      (matchGo 2 1 (jsSplit S)
        (.mk none .array [(i0, chainAux i0 ids (pl1 ++ pl2))] [] false) pool1).1 := by
    unfold natsTrieMatch
    simp only [intern_of_lookup _ _ _ hinv1.1, intern_of_lookup _ _ _ hinv1.2.1]
  have hpatids : PatIds pool1 (t :: rest) (i0 :: ids) :=
    internList_patIds (t :: rest) pool0 hinv0
  have hsat : specSatisfies (t :: rest) (jsSplit S) = true := by rw [← htr]; exact hS
  obtain ⟨T, hT, hTp, hTl⟩ := matchGo_chain rest t (jsSplit S) i0 ids (pl1 ++ pl2)
    (.mk none .array [(i0, chainAux i0 ids (pl1 ++ pl2))] [] false) pool1
    hsat hpatids rfl rfl
  refine ⟨by rw [hins1], by rw [hst1, hins2], T, ?_, hTp, hTl⟩
  rw [hst1]
  simp only [hins2]
  rw [hmatch]
  exact hT

/-- Witness for C4 at the pattern `"a.*"`, subject `"a.x"`, payloads `[1]`
and `[2]`. -/
theorem natsrun_c4_witness :
    (specInvalidPattern "a.*" = false ∧
     specSatisfies (jsSplit "a.*") (jsSplit "a.x") = true) ∧
    ((natsTrieInsert (natsTrieNew (α := Nat)) (fun _ => false) "a.*" [1]).2 = none ∧
     (natsTrieInsert (natsTrieInsert (natsTrieNew (α := Nat)) (fun _ => false) "a.*" [1]).1
        (fun _ => false) "a.*" [2]).2 = none ∧
     ∃ T ∈ (natsTrieMatch
        (natsTrieInsert (natsTrieInsert (natsTrieNew (α := Nat)) (fun _ => false) "a.*" [1]).1
          (fun _ => false) "a.*" [2]).1 "a.x").1,
      T.p = [1] ++ [2] ∧ T.l = true) :=
  ⟨⟨by decide, by decide⟩, natsrun_c4 "a.*" "a.x" [1] [2] (by decide) (by decide)⟩

/-! ## Claim C6: matching the empty subject -/

/-- Writing a key makes it readable. -/
theorem branchGet_branchSet_self {α} (bi : List (Nat × TrieNode α)) (k : Nat)
    (v : TrieNode α) : branchGet (branchSet bi k v) k = some v := by
  induction bi with
  | nil => simp [branchSet, branchGet]
  | cons e rest ih =>
    obtain ⟨k0, v0⟩ := e
    by_cases h : k0 = k
    · simp [branchSet, h, branchGet]
    · simp [branchSet, h, branchGet, ih]

/-- Writing one key leaves every other key's read unchanged. -/
theorem branchGet_branchSet_other {α} (bi : List (Nat × TrieNode α)) (k j : Nat)
    (v : TrieNode α) (hne : k ≠ j) :
    branchGet (branchSet bi k v) j = branchGet bi j := by
  induction bi with
  | nil => simp [branchSet, branchGet, hne]
  | cons e rest ih =>
    obtain ⟨k0, v0⟩ := e
    by_cases h : k0 = k
    · subst h
      simp [branchSet, branchGet, hne, Ne.symm hne]
    · by_cases h2 : k0 = j
      · subst h2
        rw [branchSet, if_neg h, branchGet, if_pos rfl, branchGet, if_pos rfl]
      · simp [branchSet, h, branchGet, h2, ih]

/-- Every entry of an updated branch is the written pair or an original
entry. -/
theorem mem_branchSet {α} (bi : List (Nat × TrieNode α)) (k : Nat) (v : TrieNode α)
    (e : Nat × TrieNode α) (h : e ∈ branchSet bi k v) : e = (k, v) ∨ e ∈ bi := by
  induction bi with
  | nil => simpa [branchSet] using h
  | cons e0 rest ih =>
    obtain ⟨k0, v0⟩ := e0
    by_cases hk : k0 = k
    · rw [branchSet, if_pos hk] at h
      rcases List.mem_cons.mp h with h1 | h1
      · exact Or.inl h1
      · exact Or.inr (List.mem_cons_of_mem _ h1)
    · rw [branchSet, if_neg hk] at h
      rcases List.mem_cons.mp h with h1 | h1
      · exact Or.inr (by simp [h1])
      · rcases ih h1 with h2 | h2
        · exact Or.inl h2
        · exact Or.inr (List.mem_cons_of_mem _ h2)

/-- `branchSet` keeps the branch keys duplicate-free. -/
theorem branchSet_nodup {α} (bi : List (Nat × TrieNode α)) (k : Nat) (v : TrieNode α)
    (h : (bi.map Prod.fst).Nodup) : ((branchSet bi k v).map Prod.fst).Nodup := by
  induction bi with
  | nil => simp [branchSet]
  | cons e0 rest ih =>
    obtain ⟨k0, v0⟩ := e0
    simp only [List.map_cons, List.nodup_cons] at h
    by_cases hk : k0 = k
    · subst hk
      rw [branchSet, if_pos rfl]
      simpa using h
    · rw [branchSet, if_neg hk]
      simp only [List.map_cons, List.nodup_cons]
      refine ⟨?_, ih h.2⟩
      intro hmem
      obtain ⟨e, he, hek⟩ := List.mem_map.mp hmem
      rcases mem_branchSet rest k v e he with h1 | h1
      · exact hk (by rw [← hek, h1])
      · exact h.1 (List.mem_map.mpr ⟨e, h1, hek⟩)

/-- A successful branch read is a membership. -/
theorem branchGet_mem {α} (bi : List (Nat × TrieNode α)) (k : Nat) (c : TrieNode α)
    (h : branchGet bi k = some c) : (k, c) ∈ bi := by
  induction bi with
  | nil => simp [branchGet] at h
  | cons e0 rest ih =>
    obtain ⟨k0, v0⟩ := e0
    by_cases hk : k0 = k
    · rw [branchGet, if_pos hk] at h
      subst hk
      simp only [Option.some.injEq] at h
      simp [h]
    · rw [branchGet, if_neg hk] at h
      exact List.mem_cons_of_mem _ (ih h)

/-- Under duplicate-free keys, a membership determines the branch read. -/
theorem mem_branchGet {α} (bi : List (Nat × TrieNode α)) (k : Nat) (c : TrieNode α)
    (hnd : (bi.map Prod.fst).Nodup) (h : (k, c) ∈ bi) : branchGet bi k = some c := by
  induction bi with
  | nil => simp at h
  | cons e0 rest ih =>
    obtain ⟨k0, v0⟩ := e0
    simp only [List.map_cons, List.nodup_cons] at hnd
    rcases List.mem_cons.mp h with h1 | h1
    · obtain ⟨hk, hc⟩ := Prod.mk.injEq .. ▸ (by exact h1.symm : (k0, v0) = (k, c))
      rw [branchGet, if_pos hk, hc]
    · have hk : k0 ≠ k := by
        intro hkk
        subst hkk
        exact hnd.1 (List.mem_map.mpr ⟨(k0, c), h1, rfl⟩)
      rw [branchGet, if_neg hk]
      exact ih hnd.2 h1

/-- The walking insert never changes a node's interned topic id. -/
theorem insertGo_t {α} (ts : List String) (n : TrieNode α) (pl : List α)
    (pool : SPool) : (insertGo ts n pl pool).1.t = n.t := by
  cases ts with
  | nil => rfl
  | cons t rest =>
    rw [insertGo_cons]
    cases branchGet n.bi (pool.intern t).1 <;> rfl

/-- On a nonempty topic list the walking insert keeps the entry node's
payload. -/
theorem insertGo_p_cons {α} (t : String) (rest : List String) (n : TrieNode α)
    (pl : List α) (pool : SPool) : (insertGo (t :: rest) n pl pool).1.p = n.p := by
  rw [insertGo_cons]
  cases branchGet n.bi (pool.intern t).1 <;> rfl

/-- On a nonempty topic list the walking insert keeps the entry node's leaf
flag. -/
theorem insertGo_l_cons {α} (t : String) (rest : List String) (n : TrieNode α)
    (pl : List α) (pool : SPool) : (insertGo (t :: rest) n pl pool).1.l = n.l := by
  rw [insertGo_cons]
  cases branchGet n.bi (pool.intern t).1 <;> rfl

/-- One-step unfolding of `insertGo` at the end of the topics. -/
theorem insertGo_nil {α} (n : TrieNode α) (pl : List α) (pool : SPool) :
    insertGo [] n pl pool = (.mk n.t n.bk n.bi (n.p ++ pl) true, pool) := rfl

/-- The pool after a walking insert is the pool after interning the topics in
order (re-interning inside `createTrie` is idempotent). -/
theorem insertGo_pool {α} (ts : List String) :
    ∀ (n : TrieNode α) (pl : List α) (pool : SPool),
    (insertGo ts n pl pool).2 = (internList pool ts).2 := by
  induction ts with
  | nil => intro n pl pool; rfl
  | cons t rest ih =>
    intro n pl pool
    rw [insertGo_cons]
    cases hbg : branchGet n.bi (pool.intern t).1 with
    | some child => exact ih child pl (pool.intern t).2
    | none =>
      by_cases ht : t = ""
      · subst ht
        simp only [createTrie, if_pos rfl]
        exact ih _ pl (pool.intern "").2
      · have hct : ((pool.intern t).2.intern t) = ((pool.intern t).1, (pool.intern t).2) :=
          intern_of_lookup _ _ _ (lookup_intern_self pool t)
        simp only [createTrie, if_neg ht, hct]
        exact ih _ pl (pool.intern t).2

/-- Unfolding of `intern` on an unknown string. -/
theorem intern_none (sp : SPool) (s : String) (h : sp.lookupStr s = none) :
    sp.intern s = (sp.nextId,
      { pool := sp.pool ++ [(s, sp.nextId)],
        strings := sp.strings ++ [(sp.nextId, s)],
        nextId := sp.nextId + 1 }) := by
  unfold SPool.intern
  rw [h]

/-- A successful lookup is a pool membership. -/
theorem lookup_mem (sp : SPool) (s : String) (i : Nat)
    (h : sp.lookupStr s = some i) : (s, i) ∈ sp.pool := by
  unfold SPool.lookupStr at h
  cases hf : sp.pool.find? (fun e => e.1 == s) with
  | none => rw [hf] at h; simp at h
  | some e =>
    rw [hf] at h
    simp only [Option.map_some', Option.some.injEq] at h
    obtain ⟨e1, e2⟩ := e
    have hm := List.mem_of_find?_eq_some hf
    have hs := List.find?_some hf
    simp only [beq_iff_eq] at hs
    simp only at h
    rw [hs, h] at hm
    exact hm

/-- Ids handed out by a well-formed pool are below its counter. -/
theorem lookup_lt_nextId (sp : SPool) (s : String) (i : Nat) (hwf : PoolWF sp)
    (h : sp.lookupStr s = some i) : i < sp.nextId :=
  (hwf.2.2.1 _ (lookup_mem _ _ _ h)).2.1

/-- A well-formed pool has never interned the empty string. -/
theorem lookup_empty_none (sp : SPool) (hwf : PoolWF sp) :
    sp.lookupStr "" = none := by
  cases h : sp.lookupStr "" with
  | none => rfl
  | some i =>
    have hm := lookup_mem _ _ _ h
    exact absurd rfl (hwf.2.2.1 _ hm).2.2

/-- Interning a nonempty string preserves pool well-formedness. -/
theorem PoolWF_intern (sp : SPool) (s : String) (hs : s ≠ "") (hwf : PoolWF sp) :
    PoolWF (sp.intern s).2 := by
  cases hl : sp.lookupStr s with
  | some i =>
    rw [intern_of_lookup _ _ _ hl]
    exact hwf
  | none =>
    have h1 := lookup_mono sp s "*" 1 hwf.1
    have h2 := lookup_mono sp s ">" 2 hwf.2.1
    rw [intern_none _ _ hl] at h1 h2 ⊢
    dsimp only at h1 h2 ⊢
    have hnext1 : 1 < sp.nextId :=
      (hwf.2.2.1 _ (lookup_mem _ _ _ hwf.1)).2.1
    refine ⟨h1, h2, ?_, ?_⟩
    · intro e he
      simp only [List.mem_append, List.mem_singleton] at he
      rcases he with he | he
      · have hb := hwf.2.2.1 e he
        refine ⟨hb.1, ?_, hb.2.2⟩
        show e.2 < sp.nextId + 1
        omega
      · subst he
        refine ⟨?_, ?_, hs⟩
        · show 1 ≤ sp.nextId
          omega
        · show sp.nextId < sp.nextId + 1
          omega
    · show ((sp.pool ++ [(s, sp.nextId)]).map Prod.snd).Nodup
      simp only [List.map_append, List.map_cons, List.map_nil]
      rw [List.nodup_append]
      refine ⟨hwf.2.2.2, List.nodup_singleton _, ?_⟩
      intro a ha hb
      simp only [List.mem_singleton] at hb
      subst hb
      obtain ⟨e, he, hea⟩ := List.mem_map.mp ha
      have hbnd := hwf.2.2.1 e he
      omega

/-- Interning a list of nonempty strings preserves pool well-formedness. -/
theorem PoolWF_internList (ls : List String) :
    ∀ (sp : SPool), (∀ x ∈ ls, x ≠ "") → PoolWF sp → PoolWF (internList sp ls).2 := by
  induction ls with
  | nil => intro sp _ hwf; exact hwf
  | cons t rest ih =>
    intro sp hls hwf
    exact ih (sp.intern t).2 (fun x hx => hls x (List.mem_cons_of_mem _ hx))
      (PoolWF_intern sp t (hls t (List.mem_cons_self _ _)) hwf)

/-- The pool the trie starts with is well-formed. -/
theorem PoolWF_init : PoolWF natsTriePool := by
  refine ⟨rfl, rfl, ?_, ?_⟩ <;> decide

/-- Interning cannot hand out the id of a different established string. -/
theorem intern_fst_eq_of_lookup (sp : SPool) (t s0 : String) (i0 : Nat)
    (hwf : PoolWF sp) (h0 : sp.lookupStr s0 = some i0)
    (h : (sp.intern t).1 = i0) : t = s0 := by
  cases hl : sp.lookupStr t with
  | some i =>
    rw [intern_of_lookup _ _ _ hl] at h
    subst h
    have hm1 := lookup_mem _ _ _ hl
    have hm2 := lookup_mem _ _ _ h0
    have := List.inj_on_of_nodup_map hwf.2.2.2 hm1 hm2 rfl
    exact congrArg Prod.fst this
  | none =>
    rw [intern_none _ _ hl] at h
    have := lookup_lt_nextId sp s0 i0 hwf h0
    omega

/-- Joining tokens with `.`: the left inverse of `jsSplit` (proof-side). -/
def joinToks : List String → List Char
  | [] => []
  | [s] => s.data
  | s :: t :: rest => s.data ++ '.' :: joinToks (t :: rest)

/-- Splitting and rejoining restores the scanned characters. -/
theorem joinToks_jsSplitAux : ∀ (cs cur : List Char),
    joinToks (jsSplitAux cs cur) = cur.reverse ++ cs := by
  intro cs
  induction cs with
  | nil => intro cur; simp [jsSplitAux, joinToks]
  | cons c cs ih =>
    intro cur
    by_cases hc : c = '.'
    · subst hc
      rw [jsSplitAux, if_pos rfl]
      cases hsp : jsSplitAux cs [] with
      | nil => exact absurd hsp (jsSplitAux_ne_nil _ _)
      | cons t rest =>
        rw [joinToks, ← hsp, ih []]
        simp
    · rw [jsSplitAux, if_neg hc, ih (c :: cur)]
      simp

/-- Splitting and rejoining restores the subject string's characters. -/
theorem joinToks_jsSplit (P : String) : joinToks (jsSplit P) = P.data := by
  unfold jsSplit
  simpa using joinToks_jsSplitAux P.data []

/-- A string that splits to a single token is that token. -/
theorem jsSplit_singleton (P s : String) (h : jsSplit P = [s]) : P = s := by
  have hd := joinToks_jsSplit P
  rw [h] at hd
  obtain ⟨pd⟩ := P
  obtain ⟨sd⟩ := s
  simp only [joinToks] at hd
  rw [hd]

/-- Appending a registration extends the `>`-payloads exactly when its
pattern is `">"`. -/
theorem gtPayloads_append {α} (log : List (String × List α)) (P : String)
    (pl : List α) :
    gtPayloads (log ++ [(P, pl)]) =
      gtPayloads log ++ (if P == ">" then pl else []) := by
  by_cases h : P = ">"
  · subst h; simp [gtPayloads, List.filter_append]
  · simp [gtPayloads, List.filter_append, h]

/-- Appending a registration extends the `*`-payloads exactly when its
pattern is `"*"`. -/
theorem starPayloads_append {α} (log : List (String × List α)) (P : String)
    (pl : List α) :
    starPayloads (log ++ [(P, pl)]) =
      starPayloads log ++ (if P == "*" then pl else []) := by
  by_cases h : P = "*"
  · subst h; simp [starPayloads, List.filter_append]
  · simp [starPayloads, List.filter_append, h]

/-- A log with no root `>` registration has no `>`-payloads. -/
theorem gtPayloads_nil_of_all {α} (log : List (String × List α))
    (h : log.all (fun e => !(e.1 == ">")) = true) : gtPayloads log = [] := by
  have hf : log.filter (fun e => e.1 == ">") = [] := by
    rw [List.filter_eq_nil_iff]
    intro a ha
    have := List.all_eq_true.mp h a ha
    simpa using this
  rw [gtPayloads, hf]
  rfl

/-- A log with no root `*` registration has no `*`-payloads. -/
theorem starPayloads_nil_of_all {α} (log : List (String × List α))
    (h : log.all (fun e => !(e.1 == "*")) = true) : starPayloads log = [] := by
  have hf : log.filter (fun e => e.1 == "*") = [] := by
    rw [List.filter_eq_nil_iff]
    intro a ha
    have := List.all_eq_true.mp h a ha
    simpa using this
  rw [starPayloads, hf]
  rfl

/-- A present `*`-payload witnesses a `*` registration. -/
theorem any_of_mem_starPayloads {α} (log : List (String × List α)) (g : α)
    (h : g ∈ starPayloads log) : log.any (fun e => e.1 == "*") = true := by
  unfold starPayloads at h
  obtain ⟨e, he, hge⟩ := List.mem_flatMap.mp h
  have hef := List.mem_filter.mp he
  exact List.any_eq_true.mpr ⟨e, hef.1, hef.2⟩

/-- Shape of one walking-insert step at a node: the branch gains or updates
exactly the entry at the first topic's id; the node's own topic id, payload
and leaf flag are untouched, and the updated child's topic id, payload and
leaf flag are determined by whether the child existed and whether the first
topic was the last. -/
theorem insertGo_root_shape {α} (t : String) (rest : List String) (root : TrieNode α)
    (pl : List α) (pool : SPool) (ht : t ≠ "") :
    ∃ (C : TrieNode α) (BK : BranchKind),
      (insertGo (t :: rest) root pl pool).1 =
        .mk root.t BK (branchSet root.bi (pool.intern t).1 C) root.p root.l ∧
      C.t = (match branchGet root.bi (pool.intern t).1 with
             | some child => child.t
             | none => some (pool.intern t).1) ∧
      (match branchGet root.bi (pool.intern t).1 with
       | some child =>
         (rest = [] → C.p = child.p ++ pl ∧ C.l = true) ∧
         (rest ≠ [] → C.p = child.p ∧ C.l = child.l)
       | none =>
         (rest = [] → C.p = pl ∧ C.l = true) ∧
         (rest ≠ [] → C.p = [] ∧ C.l = false)) := by
  cases hbg : branchGet root.bi (pool.intern t).1 with
  | some child =>
    refine ⟨(insertGo rest child pl (pool.intern t).2).1, root.bk, ?_, ?_, ?_, ?_⟩
    · rw [insertGo_cons, hbg]
    · exact insertGo_t _ _ _ _
    · intro hrest
      subst hrest
      rw [insertGo_nil]
      exact ⟨rfl, rfl⟩
    · intro hrest
      cases rest with
      | nil => exact absurd rfl hrest
      | cons r rs =>
        exact ⟨insertGo_p_cons _ _ _ _ _, insertGo_l_cons _ _ _ _ _⟩
  | none =>
    have hcreate : createTrie (α := α) rest.isEmpty t (pool.intern t).2 =
        (.mk (some (pool.intern t).1) .array [] [] rest.isEmpty, (pool.intern t).2) := by
      simp [createTrie, if_neg ht, intern_of_lookup _ _ _ (lookup_intern_self pool t)]
    refine ⟨(insertGo rest
        (.mk (some (pool.intern t).1) .array [] [] rest.isEmpty) pl (pool.intern t).2).1,
      if defaultArrayToMapThreshold ≤ root.bi.length then .map else root.bk, ?_, ?_, ?_, ?_⟩
    · rw [insertGo_cons, hbg, hcreate]
    · rw [insertGo_t]
      rfl
    · intro hrest
      subst hrest
      rw [insertGo_nil]
      exact ⟨rfl, rfl⟩
    · intro hrest
      cases rest with
      | nil => exact absurd rfl hrest
      | cons r rs =>
        refine ⟨?_, ?_⟩
        · rw [insertGo_p_cons]
          rfl
        · rw [insertGo_l_cons]
          rfl

/-- Every valid pattern splits into at least one topic. -/
theorem jsSplit_exists_cons (P : String) : ∃ t rest, jsSplit P = t :: rest := by
  cases h : jsSplit P with
  | nil => exact absurd h (jsSplit_ne_nil P)
  | cons a l => exact ⟨a, l, rfl⟩

/-- A log with no `*` registration answers `any` negatively. -/
theorem any_star_false_of_all {α} (log : List (String × List α))
    (h : log.all (fun e => !(e.1 == "*")) = true) :
    log.any (fun e => e.1 == "*") = false := by
  rw [List.any_eq_false]
  intro x hx
  have := List.all_eq_true.mp h x hx
  simpa using this

/-- Assembling the root invariant from explicit components. -/
theorem RootInv_components {α} (rt : Option Nat) (rbk : BranchKind)
    (rbi : List (Nat × TrieNode α)) (rp : List α) (rl : Bool) (sp : SPool)
    (log : List (String × List α))
    (h1 : PoolWF sp)
    (h2 : ∀ e ∈ rbi, e.2.t = some e.1 ∧ ∃ s, sp.lookupStr s = some e.1)
    (h3 : (rbi.map Prod.fst).Nodup)
    (h4 : match branchGet rbi 2 with
          | none => (log.all (fun e => !(e.1 == ">"))) = true
          | some c => c.t = some 2 ∧ c.p = gtPayloads log)
    (h5 : match branchGet rbi 1 with
          | none => (log.all (fun e => !(e.1 == "*"))) = true
          | some c => c.t = some 1 ∧ c.p = starPayloads log ∧
              (c.l = true ↔ (log.any (fun e => e.1 == "*")) = true)) :
    RootInv { trieRoot := .mk rt rbk rbi rp rl, stringPool := sp } log :=
  ⟨h1, h2, h3, h4, h5⟩

/-- Inserting a valid pattern preserves the root-level invariant, extending
the registration log. -/
theorem RootInv_insert {α} (st : TrieState α) (log : List (String × List α))
    (P : String) (pl : List α) (hinv : RootInv st log)
    (hP : specInvalidPattern P = false) :
    RootInv (natsTrieInsert st (fun _ => false) P pl).1 (log ++ [(P, pl)]) := by
  obtain ⟨hwf, hent, hnd, hgt, hstar⟩ := hinv
  obtain ⟨t, rest, htr⟩ := jsSplit_exists_cons P
  have hP' := hP
  unfold specInvalidPattern at hP'
  simp only [Bool.or_eq_false_iff] at hP'
  obtain ⟨⟨hP1, hP2⟩, hP3⟩ := hP'
  have hne : ∀ x ∈ (t :: rest), x ≠ "" := by
    rw [← htr]
    intro x hx
    rw [List.any_eq_false] at hP2
    simpa using hP2 x hx
  have ht0 : t ≠ "" := hne t (List.mem_cons_self _ _)
  simp only [natsTrieInsert_valid _ _ _ hP, htr]
  set pool := st.stringPool with hpooldef
  set root := st.trieRoot with hrootdef
  set i : Nat := (pool.intern t).1 with hidef
  have hpool' : (insertGo (t :: rest) root pl pool).2 = (internList pool (t :: rest)).2 :=
    insertGo_pool _ _ _ _
  have hwf' : PoolWF (internList pool (t :: rest)).2 :=
    PoolWF_internList _ _ hne hwf
  have hlookt : (internList pool (t :: rest)).2.lookupStr t = some i :=
    internList_mono rest _ t _ (lookup_intern_self pool t)
  obtain ⟨C, BK, hroot', hCt, hCpl⟩ := insertGo_root_shape t rest root pl pool ht0
  rw [← hidef] at hroot' hCt hCpl
  have hCti : C.t = some i := by
    cases hbg : branchGet root.bi i with
    | some child =>
      have h2 := hCt
      rw [hbg] at h2
      exact h2.trans (hent _ (branchGet_mem _ _ _ hbg)).1
    | none =>
      have h2 := hCt
      rw [hbg] at h2
      exact h2
  rw [hroot', hpool']
  refine RootInv_components _ _ _ _ _ _ _ hwf' ?_ ?_ ?_ ?_
  · -- entries carry their key as topic id and an interned string
    intro e he
    rcases mem_branchSet _ _ _ _ he with h1 | h1
    · subst h1
      exact ⟨hCti, t, hlookt⟩
    · obtain ⟨s, hs⟩ := (hent e h1).2
      exact ⟨(hent e h1).1, s, internList_mono (t :: rest) pool s _ hs⟩
  · exact branchSet_nodup _ _ _ hnd
  · -- the `>` child
    by_cases hi2 : i = 2
    · have htgt : t = ">" := intern_fst_eq_of_lookup pool t ">" 2 hwf hwf.2.1 hi2
      have hrest : rest = [] := by
        cases rest with
        | nil => rfl
        | cons r rs =>
          exfalso
          have hd : (jsSplit P).dropLast.any (fun x => x == ">") = true := by
            rw [htr, List.dropLast_cons_of_ne_nil (List.cons_ne_nil r rs), List.any_cons]
            simp [htgt]
          rw [hd] at hP3
          exact absurd hP3 (by decide)
      have hPgt : P = ">" := by
        apply jsSplit_singleton
        rw [htr, htgt, hrest]
      have hbg2 : branchGet (branchSet root.bi i C) 2 = some C := by
        rw [← hi2]
        exact branchGet_branchSet_self _ _ _
      rw [hbg2]
      refine ⟨by rw [hCti, hi2], ?_⟩
      rw [gtPayloads_append, if_pos (by simp [hPgt])]
      subst hrest
      cases hbg : branchGet root.bi i with
      | some child =>
        rw [hbg] at hCpl
        obtain ⟨hcp, _⟩ := hCpl.1 rfl
        rw [hcp]
        have hbg2' : branchGet root.bi 2 = some child := by
          rw [← hi2]
          exact hbg
        rw [hbg2'] at hgt
        obtain ⟨_, hp⟩ := hgt
        rw [hp]
      | none =>
        rw [hbg] at hCpl
        obtain ⟨hcp, _⟩ := hCpl.1 rfl
        rw [hcp]
        have hbg2' : branchGet root.bi 2 = none := by
          rw [← hi2]
          exact hbg
        rw [hbg2'] at hgt
        rw [gtPayloads_nil_of_all log hgt]
        simp
    · have hPne : P ≠ ">" := by
        intro hp
        subst hp
        have hh : jsSplit ">" = [">"] := by decide
        have h2 := hh.symm.trans htr
        have hti : t = ">" := by
          injection h2 with ha hb
          exact ha.symm
        apply hi2
        rw [hidef, hti, intern_of_lookup _ _ _ hwf.2.1]
      rw [branchGet_branchSet_other _ _ _ _ hi2]
      cases hbg2 : branchGet root.bi 2 with
      | some c =>
        rw [hbg2] at hgt
        obtain ⟨h1, h2⟩ := hgt
        refine ⟨h1, ?_⟩
        rw [gtPayloads_append, if_neg (by simp [hPne]), List.append_nil, h2]
      | none =>
        rw [hbg2] at hgt
        rw [List.all_append]
        simp [hgt, hPne]
  · -- the `*` child
    by_cases hi1 : i = 1
    · have htst : t = "*" := intern_fst_eq_of_lookup pool t "*" 1 hwf hwf.1 hi1
      have hbg1 : branchGet (branchSet root.bi i C) 1 = some C := by
        rw [← hi1]
        exact branchGet_branchSet_self _ _ _
      rw [hbg1]
      refine ⟨by rw [hCti, hi1], ?_, ?_⟩
      · -- payload bookkeeping
        cases hrest : rest with
        | nil =>
          have hPst : P = "*" := by
            apply jsSplit_singleton
            rw [htr, htst, hrest]
          rw [starPayloads_append, if_pos (by simp [hPst])]
          rw [hrest] at hCpl
          cases hbg : branchGet root.bi i with
          | some child =>
            rw [hbg] at hCpl
            obtain ⟨hcp, _⟩ := hCpl.1 rfl
            rw [hcp]
            have hbg1' : branchGet root.bi 1 = some child := by
              rw [← hi1]
              exact hbg
            rw [hbg1'] at hstar
            rw [hstar.2.1]
          | none =>
            rw [hbg] at hCpl
            obtain ⟨hcp, _⟩ := hCpl.1 rfl
            rw [hcp]
            have hbg1' : branchGet root.bi 1 = none := by
              rw [← hi1]
              exact hbg
            rw [hbg1'] at hstar
            rw [starPayloads_nil_of_all log hstar]
            simp
        | cons r rs =>
          have hPne : P ≠ "*" := by
            intro hp
            subst hp
            have hh : jsSplit "*" = ["*"] := by decide
            have h2 := hh.symm.trans htr
            rw [hrest] at h2
            injection h2 with ha hb
            exact List.cons_ne_nil r rs hb.symm
          rw [starPayloads_append, if_neg (by simp [hPne]), List.append_nil]
          rw [hrest] at hCpl
          cases hbg : branchGet root.bi i with
          | some child =>
            rw [hbg] at hCpl
            obtain ⟨hcp, _⟩ := hCpl.2 (List.cons_ne_nil r rs)
            rw [hcp]
            have hbg1' : branchGet root.bi 1 = some child := by
              rw [← hi1]
              exact hbg
            rw [hbg1'] at hstar
            rw [hstar.2.1]
          | none =>
            rw [hbg] at hCpl
            obtain ⟨hcp, _⟩ := hCpl.2 (List.cons_ne_nil r rs)
            rw [hcp]
            have hbg1' : branchGet root.bi 1 = none := by
              rw [← hi1]
              exact hbg
            rw [hbg1'] at hstar
            rw [starPayloads_nil_of_all log hstar]
      · -- leaf-flag bookkeeping
        cases hrest : rest with
        | nil =>
          have hPst : P = "*" := by
            apply jsSplit_singleton
            rw [htr, htst, hrest]
          rw [hrest] at hCpl
          have hCl : C.l = true := by
            cases hbg : branchGet root.bi i with
            | some child =>
              rw [hbg] at hCpl
              exact (hCpl.1 rfl).2
            | none =>
              rw [hbg] at hCpl
              exact (hCpl.1 rfl).2
          rw [hCl, List.any_append]
          simp [hPst]
        | cons r rs =>
          have hPne : P ≠ "*" := by
            intro hp
            subst hp
            have hh : jsSplit "*" = ["*"] := by decide
            have h2 := hh.symm.trans htr
            rw [hrest] at h2
            injection h2 with ha hb
            exact List.cons_ne_nil r rs hb.symm
          rw [hrest] at hCpl
          rw [List.any_append]
          have hany1 : [(P, pl)].any (fun e => e.1 == "*") = false := by
            simp [hPne]
          rw [hany1, Bool.or_false]
          cases hbg : branchGet root.bi i with
          | some child =>
            rw [hbg] at hCpl
            obtain ⟨_, hcl⟩ := hCpl.2 (List.cons_ne_nil r rs)
            rw [hcl]
            have hbg1' : branchGet root.bi 1 = some child := by
              rw [← hi1]
              exact hbg
            rw [hbg1'] at hstar
            exact hstar.2.2
          | none =>
            rw [hbg] at hCpl
            obtain ⟨_, hcl⟩ := hCpl.2 (List.cons_ne_nil r rs)
            rw [hcl]
            have hbg1' : branchGet root.bi 1 = none := by
              rw [← hi1]
              exact hbg
            rw [hbg1'] at hstar
            rw [any_star_false_of_all log hstar]
    · have hPne : P ≠ "*" := by
        intro hp
        subst hp
        have hh : jsSplit "*" = ["*"] := by decide
        have h2 := hh.symm.trans htr
        have hti : t = "*" := by
          injection h2 with ha hb
          exact ha.symm
        apply hi1
        rw [hidef, hti, intern_of_lookup _ _ _ hwf.1]
      rw [branchGet_branchSet_other _ _ _ _ hi1]
      cases hbg1 : branchGet root.bi 1 with
      | some c =>
        rw [hbg1] at hstar
        obtain ⟨h1, h2, h3⟩ := hstar
        refine ⟨h1, ?_, ?_⟩
        · rw [starPayloads_append, if_neg (by simp [hPne]), List.append_nil, h2]
        · rw [List.any_append]
          have hany1 : [(P, pl)].any (fun e => e.1 == "*") = false := by
            simp [hPne]
          rw [hany1, Bool.or_false]
          exact h3
      | none =>
        rw [hbg1] at hstar
        rw [List.all_append]
        simp [hstar, hPne]

/-- The fresh trie satisfies the root invariant for the empty log. -/
theorem RootInv_new {α} : RootInv (natsTrieNew (α := α)) [] :=
  RootInv_components none .array [] [] false (SPool.init ["*", ">"]) []
    PoolWF_init (by simp) (by simp) rfl rfl

/-- Building a trie from a log of valid registrations establishes the root
invariant. -/
theorem RootInv_buildTrie {α} (log : List (String × List α))
    (hval : ∀ e ∈ log, specInvalidPattern e.1 = false) :
    RootInv (buildTrie log) log := by
  induction log using List.reverseRecOn with
  | nil => exact RootInv_new
  | append_singleton log e ih =>
    have hb : buildTrie (log ++ [e]) =
        (natsTrieInsert (buildTrie log) (fun _ => false) e.1 e.2).1 := by
      unfold buildTrie
      rw [List.foldl_append]
      rfl
    rw [hb]
    obtain ⟨P, pl⟩ := e
    exact RootInv_insert _ _ _ _
      (ih (fun x hx => hval x (List.mem_append_left _ hx)))
      (hval (P, pl) (List.mem_append_right _ (List.mem_singleton_self _)))

/-- Membership in the array-branch scan when the current topic is the last:
exactly the `>` children and the leaf-or-`>` star/exact children are
collected. -/
theorem matchScan_nilrec_mem {α} (gtId starId topicId : Nat)
    (entries : List (Nat × TrieNode α)) (pool : SPool) (T : TrieNode α) :
    T ∈ (matchScan (matchGo gtId starId []) gtId starId topicId entries pool).1 ↔
      ∃ k c, (k, c) ∈ entries ∧ k ≠ 0 ∧
        ((k = gtId ∧ T = c) ∨
         (k ≠ gtId ∧ (k = starId ∨ k = topicId) ∧
           (c.l || c.t == some gtId) = true ∧ T = c)) := by
  induction entries generalizing pool with
  | nil => simp [matchScan]
  | cons e es ih =>
    obtain ⟨t, child⟩ := e
    rw [matchScan_cons]
    by_cases ht0 : t ≠ 0
    · rw [if_pos ht0]
      by_cases htg : t = gtId
      · rw [if_pos htg]
        constructor
        · intro h
          rcases List.mem_cons.mp h with h | h
          · exact ⟨t, child, List.mem_cons_self _ _, ht0, Or.inl ⟨htg, h⟩⟩
          · obtain ⟨k, c, hm, hk0, hcase⟩ := (ih pool).mp h
            exact ⟨k, c, List.mem_cons_of_mem _ hm, hk0, hcase⟩
        · rintro ⟨k, c, hm, hk0, hcase⟩
          rcases List.mem_cons.mp hm with hkc | hkc
          · injection hkc with h1 h2
            subst h1
            subst h2
            rcases hcase with ⟨_, hT⟩ | ⟨hng, _, _, _⟩
            · rw [hT]
              exact List.mem_cons_self _ _
            · exact absurd htg hng
          · exact List.mem_cons_of_mem _ ((ih pool).mpr ⟨k, c, hkc, hk0, hcase⟩)
      · rw [if_neg htg]
        by_cases hst : t = starId ∨ t = topicId
        · rw [if_pos hst, matchGo_nil]
          constructor
          · intro h
            simp only [List.mem_append] at h
            rcases h with h | h
            · by_cases hc : (child.l || child.t == some gtId) = true
              · rw [if_pos hc] at h
                simp only [List.mem_singleton] at h
                exact ⟨t, child, List.mem_cons_self _ _, ht0,
                  Or.inr ⟨htg, hst, hc, h⟩⟩
              · rw [if_neg hc] at h
                simp at h
            · obtain ⟨k, c, hm, hk0, hcase⟩ := (ih pool).mp h
              exact ⟨k, c, List.mem_cons_of_mem _ hm, hk0, hcase⟩
          · rintro ⟨k, c, hm, hk0, hcase⟩
            rcases List.mem_cons.mp hm with hkc | hkc
            · injection hkc with h1 h2
              subst h1
              subst h2
              rcases hcase with ⟨hg, _⟩ | ⟨_, _, hc, hT⟩
              · exact absurd hg htg
              · simp only [List.mem_append]
                left
                rw [if_pos hc]
                simp [hT]
            · simp only [List.mem_append]
              right
              exact (ih pool).mpr ⟨k, c, hkc, hk0, hcase⟩
        · rw [if_neg hst]
          rw [ih pool]
          constructor
          · rintro ⟨k, c, hm, hk0, hcase⟩
            exact ⟨k, c, List.mem_cons_of_mem _ hm, hk0, hcase⟩
          · rintro ⟨k, c, hm, hk0, hcase⟩
            rcases List.mem_cons.mp hm with hkc | hkc
            · injection hkc with h1 h2
              subst h1
              subst h2
              rcases hcase with ⟨hg, _⟩ | ⟨_, hso, _, _⟩
              · exact absurd hg htg
              · exact absurd hso hst
            · exact ⟨k, c, hkc, hk0, hcase⟩
    · rw [if_neg ht0]
      have ht0' : t = 0 := by omega
      rw [ih pool]
      constructor
      · rintro ⟨k, c, hm, hk0, hcase⟩
        exact ⟨k, c, List.mem_cons_of_mem _ hm, hk0, hcase⟩
      · rintro ⟨k, c, hm, hk0, hcase⟩
        rcases List.mem_cons.mp hm with hkc | hkc
        · injection hkc with h1 h2
          subst ht0'
          exact absurd h1 hk0
        · exact ⟨k, c, hkc, hk0, hcase⟩

/-- One-step unfolding of the traversal on a map branch. -/
theorem matchGo_cons_map {α} (gtId starId : Nat) (topic : String)
    (rest : List String) (n : TrieNode α) (pool : SPool) (hbk : n.bk = .map) :
    matchGo gtId starId (topic :: rest) n pool =
      (let ri := pool.intern topic
       let r1 := match branchGet n.bi ri.1 with
         | some c => matchGo gtId starId rest c ri.2
         | none => (([] : List (TrieNode α)), ri.2)
       let r2 := match branchGet n.bi starId with
         | some c => matchGo gtId starId rest c r1.2
         | none => (([] : List (TrieNode α)), r1.2)
       let r3 := match branchGet n.bi gtId with
         | some c => [c]
         | none => []
       (r1.1 ++ r2.1 ++ r3, r2.2)) := by
  cases n with
  | mk nt nbk nbi np nl =>
    simp only [TrieNode.bk] at hbk
    subst hbk
    rfl

/-- Matching the empty subject on a trie satisfying the root invariant
returns exactly the `>`-payloads and the leaf `*`-payloads of the log. -/
theorem matchEmpty_mem {α} (st : TrieState α) (log : List (String × List α))
    (hinv : RootInv st log) (g : α) :
    g ∈ ((natsTrieMatch st "").1.flatMap TrieNode.p) ↔
      g ∈ gtPayloads log ∨ g ∈ starPayloads log := by
  obtain ⟨hwf, hent, hnd, hgt, hstar⟩ := hinv
  suffices h : ∀ T, T ∈ (natsTrieMatch st "").1 ↔
      ((∃ c, branchGet st.trieRoot.bi 2 = some c ∧ T = c) ∨
       (∃ c, branchGet st.trieRoot.bi 1 = some c ∧ c.l = true ∧ T = c)) by
    rw [List.mem_flatMap]
    constructor
    · rintro ⟨T, hT, hg⟩
      rcases (h T).mp hT with ⟨c, hbg, rfl⟩ | ⟨c, hbg, hcl, rfl⟩
      · left
        rw [hbg] at hgt
        rw [← hgt.2]
        exact hg
      · right
        rw [hbg] at hstar
        rw [← hstar.2.1]
        exact hg
    · rintro (hg | hg)
      · cases hbg2 : branchGet st.trieRoot.bi 2 with
        | none =>
          rw [hbg2] at hgt
          rw [gtPayloads_nil_of_all log hgt] at hg
          simp at hg
        | some c =>
          refine ⟨c, (h c).mpr (Or.inl ⟨c, hbg2, rfl⟩), ?_⟩
          rw [hbg2] at hgt
          rw [hgt.2]
          exact hg
      · cases hbg1 : branchGet st.trieRoot.bi 1 with
        | none =>
          rw [hbg1] at hstar
          rw [starPayloads_nil_of_all log hstar] at hg
          simp at hg
        | some c =>
          have hl : c.l = true := by
            rw [hbg1] at hstar
            exact hstar.2.2.mpr (any_of_mem_starPayloads log g hg)
          refine ⟨c, (h c).mpr (Or.inr ⟨c, hbg1, hl, rfl⟩), ?_⟩
          rw [hbg1] at hstar
          rw [hstar.2.1]
          exact hg
  intro T
  have hstar1 : st.stringPool.intern "*" = (1, st.stringPool) :=
    intern_of_lookup _ _ _ hwf.1
  have hgt2 : st.stringPool.intern ">" = (2, st.stringPool) :=
    intern_of_lookup _ _ _ hwf.2.1
  have hsplit : jsSplit "" = [""] := by decide
  have hm : (natsTrieMatch st "").1 =
      (matchGo 2 1 [""] st.trieRoot st.stringPool).1 := by
    simp only [natsTrieMatch, hstar1, hgt2, hsplit]
  rw [hm]
  have hτ := intern_none _ "" (lookup_empty_none _ hwf)
  set τ := st.stringPool.nextId with hτdef
  have hkeys : ∀ e ∈ st.trieRoot.bi, 1 ≤ e.1 ∧ e.1 < τ := by
    intro e he
    obtain ⟨s, hs⟩ := (hent e he).2
    have hmem := lookup_mem _ _ _ hs
    have hb := hwf.2.2.1 _ hmem
    exact ⟨hb.1, hb.2.1⟩
  cases hbk2 : st.trieRoot.bk with
  | array =>
    rw [matchGo_cons_array _ _ _ _ _ _ hbk2]
    simp only [hτ]
    rw [matchScan_nilrec_mem]
    constructor
    · rintro ⟨k, c, hkc, hk0, hcase⟩
      rcases hcase with ⟨hk2, hT⟩ | ⟨hk2, hks, hc, hT⟩
      · subst hk2
        exact Or.inl ⟨c, mem_branchGet _ _ _ hnd hkc, hT⟩
      · have hk1 : k = 1 := by
          rcases hks with h | h
          · exact h
          · exfalso
            have := (hkeys _ hkc).2
            omega
        subst hk1
        have hct : c.t = some 1 := (hent _ hkc).1
        have hcl : c.l = true := by
          rcases Bool.or_eq_true_iff.mp hc with h | h
          · exact h
          · rw [hct] at h
            exact absurd h (by decide)
        exact Or.inr ⟨c, mem_branchGet _ _ _ hnd hkc, hcl, hT⟩
    · rintro (⟨c, hbg, hT⟩ | ⟨c, hbg, hcl, hT⟩)
      · exact ⟨2, c, branchGet_mem _ _ _ hbg, by decide, Or.inl ⟨rfl, hT⟩⟩
      · refine ⟨1, c, branchGet_mem _ _ _ hbg, by decide,
          Or.inr ⟨by decide, Or.inl rfl, ?_, hT⟩⟩
        rw [hcl]
        simp
  | map =>
    rw [matchGo_cons_map _ _ _ _ _ _ hbk2]
    simp only [hτ]
    have hno : branchGet st.trieRoot.bi τ = none := by
      cases hb : branchGet st.trieRoot.bi τ with
      | none => rfl
      | some c =>
        have := (hkeys _ (branchGet_mem _ _ _ hb)).2
        omega
    rw [hno]
    cases hbg1 : branchGet st.trieRoot.bi 1 with
    | none =>
      cases hbg2 : branchGet st.trieRoot.bi 2 with
      | none => simp
      | some c2 => simp
    | some c1 =>
      have hct : c1.t = some 1 := (hent _ (branchGet_mem _ _ _ hbg1)).1
      have hcond : (c1.l || c1.t == some 2) = c1.l := by
        rw [hct]
        simp
      cases hbg2 : branchGet st.trieRoot.bi 2 with
      | none =>
        simp only [matchGo_nil, hcond]
        by_cases hl : c1.l = true
        · simp [hl]
        · simp [hl]
      | some c2 =>
        simp only [matchGo_nil, hcond]
        by_cases hl : c1.l = true
        · simp [hl]
          exact Or.comm
        · simp [hl]

/-- Claim C6 amended: for every log of valid registrations, matching the
empty subject returns exactly the handlers registered under the root-level
`>` pattern **and** those registered under the root-level `*` pattern (the
empty subject splits to the one-token list `[""]`, which `*` matches), not
only the `>` ones. -/
theorem natsrun_c6_amended {α} (log : List (String × List α))
    (hval : ∀ e ∈ log, specInvalidPattern e.1 = false) (g : α) :
    g ∈ ((natsTrieMatch (buildTrie log) "").1.flatMap TrieNode.p) ↔
      g ∈ gtPayloads log ∨ g ∈ starPayloads log :=
  matchEmpty_mem _ _ (RootInv_buildTrie log hval) g

/-- Witness for the amended C6 at the log `>` ↦ `[1]`, `*` ↦ `[2]`,
`a` ↦ `[3]` and the handler `2` registered under `*`. -/
theorem natsrun_c6_amended_witness :
    (∀ e ∈ ([(">", [1]), ("*", [2]), ("a", [3])] : List (String × List Nat)),
        specInvalidPattern e.1 = false) ∧
    (2 ∈ ((natsTrieMatch (buildTrie [(">", [1]), ("*", [2]), ("a", [3])]) "").1.flatMap
        TrieNode.p) ↔
      2 ∈ gtPayloads [(">", [1]), ("*", [2]), ("a", [3])] ∨
      2 ∈ starPayloads [(">", [1]), ("*", [2]), ("a", [3])]) :=
  ⟨by decide, natsrun_c6_amended _ (by decide) 2⟩
